import Mathlib

/-!
# scr: the video merger (`media/fuze.go`) and the list-deletion CLI (`go/list_delete.go`)

A shallow embedding of the two Go programs.

* Go strings are modelled as lists of characters (`Str`); a file's content is a `Str` too.
* The file system is an explicit association list from path strings to nodes.
* Child processes (`fzf`, `ffprobe`, `ffmpeg`), `os.MkdirTemp` and `runtime.NumCPU` are
  fields of an environment record `Env`.
* The order in which the normalization goroutines perform their work is an explicit
  argument; the synchronisation skeleton (semaphore, wait group) is a separate step function.
* The list-deletion CLI is embedded over a record of its operating-system calls
  (`os.Stat`, `os.Remove`, `os.ReadDir`, reading the list file) on an explicit state.
-/

namespace Scr

/-! ## Go values and the standard-library functions the programs call -/

/-- A Go `string`, as the list of its characters. -/
abbrev Str := List Char

deriving instance DecidableEq for Except

/-- The Go function `unicode.IsSpace`: the Unicode White_Space code points. -/
def isSpace (c : Char) : Bool :=
  let n := c.toNat
  n == 9 || n == 10 || n == 11 || n == 12 || n == 13 || n == 32 || n == 133 || n == 160 ||
  n == 5760 || (8192 ≤ n && n ≤ 8202) || n == 8232 || n == 8233 || n == 8239 ||
  n == 8287 || n == 12288

/-- The Go function `strings.TrimSpace`: drop leading and trailing white space. -/
def trimSpace (s : Str) : Str :=
  ((s.dropWhile isSpace).reverse.dropWhile isSpace).reverse

/-- Split at every character satisfying `p`; the pieces between separators are kept,
empty ones included, so the result always has one piece more than there are separators. -/
def splitBy (p : Char → Bool) : Str → List Str
  | [] => [[]]
  | c :: cs =>
    if p c then [] :: splitBy p cs
    else
      match splitBy p cs with
      | [] => [[c]]
      | w :: ws => (c :: w) :: ws

/-- The Go call `strings.Split(s, "\n")`. -/
def splitNewline (s : Str) : List Str := splitBy (fun c => c == '\n') s

/-- The Go function `strings.Fields`: the maximal runs of non-space characters. -/
def fields (s : Str) : List Str := (splitBy isSpace s).filter (fun w => !w.isEmpty)

/-- The value of a decimal digit character. -/
def digitVal (c : Char) : Option Nat :=
  if 48 ≤ c.toNat ∧ c.toNat ≤ 57 then some (c.toNat - 48) else none

/-- Read a run of decimal digits into the accumulator; `none` on any other character. -/
def parseDigits : Nat → Str → Option Nat
  | acc, [] => some acc
  | acc, c :: cs =>
    match digitVal c with
    | none => none
    | some d => parseDigits (acc * 10 + d) cs

/-- An unsigned decimal numeral: at least one digit, digits only. -/
def parseNat (s : Str) : Option Nat :=
  match s with
  | [] => none
  | _ :: _ => parseDigits 0 s

/-- The largest value of the Go type `int` on a 64-bit platform. -/
def maxInt : Nat := 2 ^ 63 - 1

/-- The Go function `strconv.Atoi` for a 64-bit `int`: an optional sign, then decimal
digits; `none` stands for a syntax or range error. -/
def atoi (s : Str) : Option Int :=
  match s with
  | '-' :: ds =>
    match parseNat ds with
    | none => none
    | some n => if n ≤ maxInt + 1 then some (-(n : Int)) else none
  | '+' :: ds =>
    match parseNat ds with
    | none => none
    | some n => if n ≤ maxInt then some (n : Int) else none
  | ds =>
    match parseNat ds with
    | none => none
    | some n => if n ≤ maxInt then some (n : Int) else none

/-- The Go verb `%d` applied to an `int`. -/
def fmtInt (z : Int) : Str :=
  if z < 0 then '-' :: Nat.toDigits 10 z.natAbs else Nat.toDigits 10 z.natAbs

/-- The Go function `strings.Join` for path elements: the pieces with `/` in between. -/
def joinSlash : List Str → Str
  | [] => []
  | [a] => a
  | a :: b :: rest => a ++ '/' :: joinSlash (b :: rest)

/-- One step of the lexical processing of `filepath.Clean`: push a path element on the
stack of elements kept so far (most recent first). -/
def cleanPush (rooted : Bool) (stack : List Str) (elem : Str) : List Str :=
  if elem = [] ∨ elem = ['.'] then stack
  else if elem = ['.', '.'] then
    match stack with
    | [] => if rooted then [] else [elem]
    | top :: below => if top = ['.', '.'] then elem :: stack else below
  else elem :: stack

/-- The Go function `filepath.Clean` on Unix: collapse repeated separators, drop `.`
elements, resolve inner `..` elements; the empty result is `.`. -/
def clean (p : Str) : Str :=
  let rooted := p.head? = some '/'
  let kept := ((splitBy (fun c => c == '/') p).foldl (cleanPush rooted) []).reverse
  if rooted then '/' :: joinSlash kept
  else if kept = [] then ['.'] else joinSlash kept

/-- The Go call `filepath.Join(dir, name)`: empty elements are ignored and the result is
cleaned. -/
def joinPath (dir name : Str) : Str :=
  if dir = [] ∧ name = [] then []
  else if dir = [] then clean name
  else if name = [] then clean dir
  else clean (dir ++ '/' :: name)

/-- The Go function `filepath.Base` on Unix: the last element of the path, after removing
trailing slashes; `.` for the empty path and `/` for a path of slashes only. -/
def base (p : Str) : Str :=
  if p = [] then ['.']
  else
    let stripped := (p.reverse.dropWhile (fun c => c == '/')).reverse
    if stripped = [] then ['/']
    else (stripped.reverse.takeWhile (fun c => c != '/')).reverse

/-! ## The file system and the environment -/

/-- An entry of the file system: a regular file with its content, or a directory. -/
inductive Node
  | file (content : Str)
  | dir
  deriving DecidableEq

/-- The file system: path strings and what they name. A path names the first entry that
carries it. -/
abbrev FS := List (Str × Node)

/-- Association-list lookup of a path. -/
def lookupPath (p : Str) : FS → Option Node
  | [] => none
  | (q, n) :: rest => if q = p then some n else lookupPath p rest

/-- What the path names, if anything; the empty path names nothing. -/
def node (fs : FS) (p : Str) : Option Node :=
  if p = [] then none else lookupPath p fs

/-- Whether `os.Stat(p)` succeeds, that is whether the path exists. -/
def stat (fs : FS) (p : Str) : Bool := (node fs p).isSome

/-- Whether `p` lies strictly below the directory `dir`. -/
def isUnder (dir p : Str) : Bool := (dir ++ ['/']).isPrefixOf p

/-- The Go function `os.RemoveAll`: remove the path and everything below it. Paths are
compared as spelled, so this is `os.RemoveAll` for a directory name that is a cleaned path,
as the names `os.MkdirTemp` returns for a cleaned temporary directory are. -/
def removeAll (fs : FS) (dir : Str) : FS :=
  fs.filter (fun e => !(decide (e.1 = dir) || isUnder dir e.1))

/-- Make `p` a regular file with the given content. -/
def writeFile (fs : FS) (p : Str) (content : Str) : FS :=
  (p, Node.file content) :: fs.filter (fun e => !decide (e.1 = p))

/-- Make `p` a directory (the effect of a successful `os.MkdirTemp` returning `p`). -/
def mkdir (fs : FS) (p : Str) : FS :=
  (p, Node.dir) :: fs.filter (fun e => !decide (e.1 = p))

/-- The Go function `os.Create`: create or truncate the file; it fails on the empty path
and on a directory. The parent directory is taken to exist: the program creates files
only directly in a directory it has just made. -/
def createFile (fs : FS) (p : Str) : Option FS :=
  if p = [] then none
  else
    match node fs p with
    | some Node.dir => none
    | _ => some (writeFile fs p [])

/-- A successful `WriteString` on the open file `p`: append to its content. -/
def appendFile (fs : FS) (p : Str) (text : Str) : FS :=
  match node fs p with
  | some (Node.file c) => writeFile fs p (c ++ text)
  | _ => writeFile fs p text

/-- The content of the regular file `p`; empty when `p` is no regular file. -/
def contentOf (fs : FS) (p : Str) : Str :=
  match node fs p with
  | some (Node.file c) => c
  | _ => []

/-- Everything the programs obtain from outside: child processes, temporary names and
the number of CPUs. -/
structure Env where
  /-- Whether `exec.LookPath` finds the command. -/
  lookPath : Str → Bool
  /-- The file selector: its standard output when it exits with status 0. -/
  fzf : Option Str
  /-- The media prober on a file: its standard output when it exits with status 0. -/
  ffprobe : Str → Option Str
  /-- The transcoder on an argument list: what it writes to its output file (the last
  argument) when it exits with status 0. -/
  ffmpeg : List Str → FS → Option Str
  /-- The directory `os.MkdirTemp("", pattern)` creates, when it succeeds. -/
  mkdirTemp : Str → FS → Option Str
  /-- The value of `runtime.NumCPU()`. -/
  numCPU : Nat

/-- What the pipeline does to the outside world, in the order it happens. -/
inductive Event
  | exec (cmd : Str) (args : List Str) (ok : Bool)
  | copy (src dst : Str) (ok : Bool)
  | mergeCall (files : List Str)
  deriving DecidableEq

/-- Whether the event is an operation that failed. -/
def Event.failed : Event → Bool
  | .exec _ _ ok => !ok
  | .copy _ _ ok => !ok
  | .mergeCall _ => false

/-! ## media/fuze.go -/

/-- The errors of `getVideoDimensions`. -/
inductive ProbeErr
  | toolFailed
  | invalidOutput
  | badWidth
  | badHeight
  deriving DecidableEq

/-- `getVideoDimensions`: run the prober and read two white-space separated integers. -/
def getVideoDimensions (env : Env) (file : Str) : Except ProbeErr (Int × Int) :=
  match env.ffprobe file with
  | none => .error .toolFailed
  | some output =>
    match fields (trimSpace output) with
    | [a, b] =>
      match atoi a with
      | none => .error .badWidth
      | some width =>
        match atoi b with
        | none => .error .badHeight
        | some height => .ok (width, height)
    | _ => .error .invalidOutput

/-- The Go map `map[string][2]int`: the most recent binding of a key comes first. -/
abbrev Props := List (Str × (Int × Int))

/-- Indexing the map: the zero value `[0, 0]` for a missing key. -/
def propsGet : Props → Str → Int × Int
  | [], _ => (0, 0)
  | (k, v) :: rest, file => if k = file then v else propsGet rest file

/-- The errors of `analyzeVideos`. -/
inductive AnalyzeErr
  | notExist (file : Str)
  | probe (file : Str) (cause : ProbeErr)
  deriving DecidableEq

/-- The loop of `analyzeVideos`, with the running maxima and the map built so far. -/
def analyzeLoop (env : Env) (fs : FS) :
    List Str → Int → Int → Props → Except AnalyzeErr (Int × Int × Props)
  | [], maxWidth, maxHeight, videoProps => .ok (maxWidth, maxHeight, videoProps)
  | file :: rest, maxWidth, maxHeight, videoProps =>
    if !stat fs file then .error (.notExist file)
    else
      match getVideoDimensions env file with
      | .error e => .error (.probe file e)
      | .ok (width, height) =>
        analyzeLoop env fs rest
          (if width > maxWidth then width else maxWidth)
          (if height > maxHeight then height else maxHeight)
          ((file, (width, height)) :: videoProps)

/-- `analyzeVideos`: the maximum width and height among the files, and their properties. -/
def analyzeVideos (env : Env) (fs : FS) (files : List Str) :
    Except AnalyzeErr (Int × Int × Props) :=
  analyzeLoop env fs files 0 0 []

/-- `selectVideoFiles`: the selector's output, trimmed and split at newlines; `none` when
the selector fails. -/
def selectVideoFiles (env : Env) : Option (List Str) :=
  match env.fzf with
  | none => none
  | some out => some (splitNewline (trimSpace out))

/-- The errors `normalizeVideos` returns. -/
inductive NormErr
  | tempDir
  | normalizing (file : Str)
  | copying (file : Str)
  deriving DecidableEq

/-- The arguments `ffmpegNormalize` passes to the transcoder. -/
def scaleArgs (inputFile outputFile : Str) (maxWidth maxHeight : Int) : List Str :=
  ["-y".toList, "-hide_banner".toList, "-loglevel".toList, "error".toList,
   "-i".toList, inputFile,
   "-vf".toList,
   "scale=".toList ++ fmtInt maxWidth ++ ":".toList ++ fmtInt maxHeight ++
     ":force_original_aspect_ratio=decrease,pad=".toList ++ fmtInt maxWidth ++ ":".toList ++
     fmtInt maxHeight ++ ":(ow-iw)/2:(oh-ih)/2".toList,
   "-c:v".toList, "libx264".toList, "-preset".toList, "fast".toList, "-crf".toList,
   "23".toList,
   "-c:a".toList, "aac".toList, "-strict".toList, "experimental".toList,
   outputFile]

/-- `ffmpegNormalize`: run the transcoder to scale and pad one file; the new file system,
whether the run succeeded, and the event. -/
def ffmpegNormalize (env : Env) (fs : FS) (inputFile outputFile : Str)
    (maxWidth maxHeight : Int) : FS × Bool × Event :=
  let args := scaleArgs inputFile outputFile maxWidth maxHeight
  match env.ffmpeg args fs with
  | none => (fs, false, Event.exec "ffmpeg".toList args false)
  | some out => (writeFile fs outputFile out, true, Event.exec "ffmpeg".toList args true)

/-- `copyFile`: open the source, create (truncate) the destination, copy the bytes. -/
def copyFile (fs : FS) (src dst : Str) : FS × Bool :=
  match node fs src with
  | none => (fs, false)
  | some _ =>
    match createFile fs dst with
    | none => (fs, false)
    | some fs1 =>
      match node fs1 src with
      | some (Node.file c) => (writeFile fs1 dst c, true)
      | _ => (fs1, false)

/-- What the goroutines of `normalizeVideos` share: the file system, the result slice,
the error channel, and the record of what was run. -/
structure NormState where
  fs : FS
  normalizedFiles : List Str
  errChan : List NormErr
  trace : List Event

/-- The path a worker writes the normalized copy of `file` to. -/
def artifactPath (tmpDir file : Str) : Str :=
  joinPath tmpDir ("normalized_".toList ++ base file)

/-- The body of the goroutine `normalizeVideos` starts for `files[i]`. -/
def worker (env : Env) (tmpDir : Str) (props : Props) (maxWidth maxHeight : Int)
    (st : NormState) (i : Nat) (file : Str) : NormState :=
  let width := (propsGet props file).1
  let height := (propsGet props file).2
  let baseName := base file
  let outputFile := joinPath tmpDir ("normalized_".toList ++ baseName)
  if width ≠ maxWidth ∨ height ≠ maxHeight then
    match ffmpegNormalize env st.fs file outputFile maxWidth maxHeight with
    | (fs1, false, ev) =>
      { st with fs := fs1, errChan := st.errChan ++ [NormErr.normalizing file],
                trace := st.trace ++ [ev] }
    | (fs1, true, ev) =>
      { st with fs := fs1, normalizedFiles := st.normalizedFiles.set i outputFile,
                trace := st.trace ++ [ev] }
  else
    match copyFile st.fs file outputFile with
    | (fs1, false) =>
      { st with fs := fs1, errChan := st.errChan ++ [NormErr.copying file],
                trace := st.trace ++ [Event.copy file outputFile false] }
    | (fs1, true) =>
      { st with fs := fs1, normalizedFiles := st.normalizedFiles.set i outputFile,
                trace := st.trace ++ [Event.copy file outputFile true] }

/-- One worker of the pool performing its body: the worker of index `i`, if there is one.
The body is one step: the operations of different workers are ordered, not interleaved
below the level of a whole copy or transcoder run. -/
def runWorker (env : Env) (tmpDir : Str) (files : List Str) (props : Props)
    (maxWidth maxHeight : Int) (st : NormState) (i : Nat) : NormState :=
  match files.get? i with
  | none => st
  | some file => worker env tmpDir props maxWidth maxHeight st i file

/-- The event of a worker of the pool: a copy to the file's artifact path, or a transcoder
run with the scale-and-pad arguments for the file. -/
def workerEvent (tmpDir : Str) (maxWidth maxHeight : Int) (file : Str) (ev : Event) : Prop :=
  ∃ ok, ev = Event.copy file (artifactPath tmpDir file) ok ∨
    ev = Event.exec "ffmpeg".toList
      (scaleArgs file (artifactPath tmpDir file) maxWidth maxHeight) ok

/-- What every reachable state of the pool satisfies, whatever the order of the workers:
the result slice keeps its length, the error channel is empty exactly when no operation
failed, every operation is a worker's, and only artifact paths were written. -/
def PoolInv (fs0 : FS) (tmpDir : Str) (files : List Str) (maxWidth maxHeight : Int)
    (st : NormState) : Prop :=
  st.normalizedFiles.length = files.length ∧
  (st.errChan = [] ↔ ∀ ev ∈ st.trace, ev.failed = false) ∧
  (∀ ev ∈ st.trace, ∃ f ∈ files, workerEvent tmpDir maxWidth maxHeight f ev) ∧
  (∀ p, (∀ f ∈ files, p ≠ artifactPath tmpDir f) → node st.fs p = node fs0 p)

/-- What `normalizeVideos` leaves behind and returns. -/
structure NormResult where
  fs : FS
  result : Except NormErr (List Str)
  trace : List Event
  tmpDir : Option Str

/-- `normalizeVideos`: one worker per file, performing their bodies in the order `order`
(the completion order the scheduler happens to produce); after the barrier the first
error sent on the channel is returned, if any, else the result slice. The deferred
`os.RemoveAll(tmpDir)` runs on every return after the directory was created. -/
def normalizeVideos (env : Env) (fs : FS) (files : List Str) (props : Props)
    (maxWidth maxHeight : Int) (order : List Nat) : NormResult :=
  match env.mkdirTemp "normalized_videos".toList fs with
  | none => { fs := fs, result := .error NormErr.tempDir, trace := [], tmpDir := none }
  | some tmpDir =>
    let st0 : NormState :=
      { fs := mkdir fs tmpDir, normalizedFiles := List.replicate files.length [],
        errChan := [], trace := [] }
    let st := order.foldl (runWorker env tmpDir files props maxWidth maxHeight) st0
    match st.errChan with
    | e :: _ =>
      { fs := removeAll st.fs tmpDir, result := .error e, trace := st.trace,
        tmpDir := some tmpDir }
    | [] =>
      { fs := removeAll st.fs tmpDir, result := .ok st.normalizedFiles, trace := st.trace,
        tmpDir := some tmpDir }

/-- The errors of `mergeVideos`. -/
inductive MergeErr
  | tempDir
  | create
  | notFound (file : Str)
  | transcoder
  deriving DecidableEq

/-- The line `mergeVideos` writes to the manifest for one file: `file` followed by the
path between single quotes, and a newline. -/
def manifestLine (file : Str) : Str :=
  "file ".toList ++ [Char.ofNat 39] ++ file ++ [Char.ofNat 39, '\n']

/-- The loop of `mergeVideos`: check that each file exists, then append its line to the
manifest; the first missing file ends the loop with an error. -/
def mergeLoop (concatFile : Str) : List Str → FS → FS × Option MergeErr
  | [], fs => (fs, none)
  | file :: rest, fs =>
    if !stat fs file then (fs, some (MergeErr.notFound file))
    else mergeLoop concatFile rest (appendFile fs concatFile (manifestLine file))

/-- The arguments `mergeVideos` passes to the transcoder. -/
def concatArgs (concatFile output : Str) : List Str :=
  ["-y".toList, "-hide_banner".toList, "-loglevel".toList, "error".toList,
   "-f".toList, "concat".toList, "-safe".toList, "0".toList,
   "-i".toList, concatFile,
   "-c".toList, "copy".toList,
   output]

/-- What `mergeVideos` leaves behind and returns; `manifest` is the text it wrote to the
manifest file before that file was removed with its directory. -/
structure MergeResult where
  fs : FS
  err : Option MergeErr
  manifest : Str
  trace : List Event

/-- `mergeVideos`: write the manifest and run the transcoder in concatenation mode. The
deferred `os.RemoveAll(tmpDir)` runs on every return after the directory was created. -/
def mergeVideos (env : Env) (fs : FS) (files : List Str) (output : Str) : MergeResult :=
  match env.mkdirTemp "concat".toList fs with
  | none => { fs := fs, err := some MergeErr.tempDir, manifest := [], trace := [] }
  | some tmpDir =>
    let fs0 := mkdir fs tmpDir
    let concatFile := joinPath tmpDir "concat_list.txt".toList
    match createFile fs0 concatFile with
    | none =>
      { fs := removeAll fs0 tmpDir, err := some MergeErr.create, manifest := [], trace := [] }
    | some fs1 =>
      match mergeLoop concatFile files fs1 with
      | (fs2, some e) =>
        { fs := removeAll fs2 tmpDir, err := some e, manifest := contentOf fs2 concatFile,
          trace := [] }
      | (fs2, none) =>
        let args := concatArgs concatFile output
        match env.ffmpeg args fs2 with
        | none =>
          { fs := removeAll fs2 tmpDir, err := some MergeErr.transcoder,
            manifest := contentOf fs2 concatFile,
            trace := [Event.exec "ffmpeg".toList args false] }
        | some out =>
          { fs := removeAll (writeFile fs2 output out) tmpDir, err := none,
            manifest := contentOf fs2 concatFile,
            trace := [Event.exec "ffmpeg".toList args true] }

/-- How a run of `main` ends. -/
inductive Outcome
  | missingDependencies (missing : List Str)
  | selectFailed
  | noFilesSelected
  | analyzeFailed (e : AnalyzeErr)
  | normalizeFailed (e : NormErr)
  | mergeFailed (e : MergeErr)
  | merged (output : Str)
  deriving DecidableEq

/-- A run of `main`: how it ended, the file system it left, what it ran, and the text of
the manifest when `mergeVideos` was called. -/
structure Run where
  outcome : Outcome
  fs : FS
  trace : List Event
  manifest : Option Str

/-- `checkDependencies`: the commands that `exec.LookPath` does not find. -/
def checkDependencies (env : Env) (commands : List Str) : List Str :=
  commands.filter (fun c => !env.lookPath c)

/-- `main`: check the dependencies, select, analyze, normalize, merge. Every `log.Fatalf`
ends the run with the corresponding outcome. -/
def main (env : Env) (fs : FS) (outputName : Str) (order : List Nat) : Run :=
  match checkDependencies env ["fzf".toList, "ffmpeg".toList, "ffprobe".toList] with
  | m :: ms => { outcome := .missingDependencies (m :: ms), fs := fs, trace := [], manifest := none }
  | [] =>
    match selectVideoFiles env with
    | none => { outcome := .selectFailed, fs := fs, trace := [], manifest := none }
    | some videoFiles =>
      if videoFiles.length = 0 then
        { outcome := .noFilesSelected, fs := fs, trace := [], manifest := none }
      else
        match analyzeVideos env fs videoFiles with
        | .error e => { outcome := .analyzeFailed e, fs := fs, trace := [], manifest := none }
        | .ok (maxWidth, maxHeight, videoProps) =>
          let nr := normalizeVideos env fs videoFiles videoProps maxWidth maxHeight order
          match nr.result with
          | .error e =>
            { outcome := .normalizeFailed e, fs := nr.fs, trace := nr.trace, manifest := none }
          | .ok normalizedFiles =>
            let mr := mergeVideos env nr.fs normalizedFiles outputName
            match mr.err with
            | some e =>
              { outcome := .mergeFailed e, fs := mr.fs,
                trace := nr.trace ++ Event.mergeCall normalizedFiles :: mr.trace,
                manifest := some mr.manifest }
            | none =>
              { outcome := .merged outputName, fs := mr.fs,
                trace := nr.trace ++ Event.mergeCall normalizedFiles :: mr.trace,
                manifest := some mr.manifest }

/-! ## The synchronisation of `normalizeVideos`

The goroutines of `normalizeVideos` are interchangeable as far as the semaphore and the
wait group are concerned, so the state counts how many of them are at each point. A step
is one statement of one goroutine; the capacity `p` of the semaphore is the value of
`runtime.NumCPU()` and `n` is the number of files. -/

/-- Where the goroutine running `normalizeVideos` is. -/
inductive MainPc
  /-- At the head of the loop: the next step is `wg.Add(1)`, or leaving the loop. -/
  | loopHead
  /-- After `wg.Add(1)`: the next step is the send `sem <- struct{}{}`. -/
  | loopSend
  /-- After the send: the next step is the `go` statement. -/
  | loopGo
  /-- At `wg.Wait()`. -/
  | waiting
  /-- After `wg.Wait()`: the next step is `close(errChan)`. -/
  | closing
  /-- After the close: the next step reads `len(errChan)`, the channel and the slice. -/
  | reading
  /-- The function has returned. -/
  | returned
  deriving DecidableEq

/-- The state of the pool: the position of `normalizeVideos`, how many workers are at each
point of their life, and the two synchronisation objects. -/
structure Pool where
  pc : MainPc
  /-- The loop index: how many `go` statements were executed. -/
  i : Nat
  /-- Workers started whose body (copy or transcode, result store) is not complete. -/
  running : Nat
  /-- Workers whose body is complete and whose deferred `<-sem` has not run yet. -/
  returning : Nat
  /-- Workers that ran `<-sem` and whose deferred `wg.Done()` has not run yet. -/
  released : Nat
  /-- Workers that ran `wg.Done()`. -/
  finished : Nat
  /-- The number of elements in the channel `sem`. -/
  sem : Nat
  /-- The counter of the wait group. -/
  wg : Nat
  deriving DecidableEq

/-- Who takes the next step. -/
inductive Action
  /-- The goroutine of `normalizeVideos` executes its next statement. -/
  | main
  /-- A running worker completes its body. -/
  | body
  /-- A worker runs its deferred `<-sem` (registered last, so run first). -/
  | release
  /-- A worker runs its deferred `wg.Done()`. -/
  | done
  deriving DecidableEq

/-- The state in which `normalizeVideos` enters its loop. -/
def Pool.start : Pool :=
  { pc := .loopHead, i := 0, running := 0, returning := 0, released := 0, finished := 0,
    sem := 0, wg := 0 }

/-- One step of the pool for `n` files and a semaphore of capacity `p`; `none` when the
chosen goroutine cannot take a step (it is blocked, or there is no such goroutine). -/
def Pool.step (p n : Nat) (s : Pool) : Action → Option Pool
  | .main =>
    match s.pc with
    | .loopHead =>
      if s.i < n then some { s with pc := .loopSend, wg := s.wg + 1 }
      else some { s with pc := .waiting }
    | .loopSend =>
      if s.sem < p then some { s with pc := .loopGo, sem := s.sem + 1 } else none
    | .loopGo => some { s with pc := .loopHead, i := s.i + 1, running := s.running + 1 }
    | .waiting => if s.wg = 0 then some { s with pc := .closing } else none
    | .closing => some { s with pc := .reading }
    | .reading => some { s with pc := .returned }
    | .returned => none
  | .body =>
    if 0 < s.running then
      some { s with running := s.running - 1, returning := s.returning + 1 }
    else none
  | .release =>
    if 0 < s.returning ∧ 0 < s.sem then
      some { s with returning := s.returning - 1, released := s.released + 1,
                    sem := s.sem - 1 }
    else none
  | .done =>
    if 0 < s.released ∧ 0 < s.wg then
      some { s with released := s.released - 1, finished := s.finished + 1, wg := s.wg - 1 }
    else none

/-- Run a schedule from a state; `none` when some step of it cannot be taken. -/
def Pool.exec (p n : Nat) : Pool → List Action → Option Pool
  | s, [] => some s
  | s, a :: rest =>
    match Pool.step p n s a with
    | none => none
    | some s2 => Pool.exec p n s2 rest

/-- The steps of one file when nothing else runs in between: `wg.Add(1)`, the send, the
`go` statement, then the worker's body and its two deferred calls. -/
def Pool.round : List Action :=
  [.main, .main, .main, .body, .release, .done]

/-- The schedule that handles the `n` files one after the other, then leaves the loop,
passes the barrier, closes the channel and reads the results. -/
def Pool.sequential (n : Nat) : List Action :=
  (List.replicate n Pool.round).flatten ++ [.main, .main, .main, .main]

/-- The semaphore slot `normalizeVideos` itself holds: one between its send and the `go`
statement that hands the slot to the new worker. -/
def MainPc.slot : MainPc → Nat
  | .loopGo => 1
  | _ => 0

/-- The unit `normalizeVideos` has added to the wait group for a worker not started yet. -/
def MainPc.pending : MainPc → Nat
  | .loopSend => 1
  | .loopGo => 1
  | _ => 0

/-- Whether `normalizeVideos` has left its loop. -/
def MainPc.afterLoop : MainPc → Bool
  | .waiting => true
  | .closing => true
  | .reading => true
  | .returned => true
  | _ => false

/-- Whether `normalizeVideos` is past the barrier `wg.Wait()`. -/
def MainPc.pastBarrier : MainPc → Bool
  | .closing => true
  | .reading => true
  | .returned => true
  | _ => false

/-- What holds in every reachable state of the pool. -/
def Pool.Inv (p n : Nat) (s : Pool) : Prop :=
  s.i = s.running + s.returning + s.released + s.finished ∧
  s.i + s.pc.pending ≤ n ∧
  s.sem = s.running + s.returning + s.pc.slot ∧
  s.sem ≤ p ∧
  s.wg = s.running + s.returning + s.released + s.pc.pending ∧
  (s.pc.afterLoop = true → s.i = n) ∧
  (s.pc.pastBarrier = true → s.running = 0 ∧ s.returning = 0 ∧ s.released = 0)

/-! ## go/list_delete.go -/

/-- The Go call `strings.EqualFold(s, "y")`: the only strings that fold to `y` are `y`
and `Y`. -/
def equalFoldY (s : Str) : Bool := decide (s = ['y']) || decide (s = ['Y'])

/-- The Go constant `bufio.MaxScanTokenSize`. -/
def maxScanTokenSize : Nat := 65536

/-- The helper `dropCR` of `bufio.ScanLines`: drop one trailing carriage return. -/
def dropCR (line : Str) : Str :=
  match line.reverse with
  | '\r' :: rest => rest.reverse
  | _ => line

/-- The pieces of the content between newlines; an empty piece after the last newline is
no line. -/
def rawLines (content : Str) : List Str :=
  if (splitNewline content).getLast? = some [] then (splitNewline content).dropLast
  else splitNewline content

/-- The number of bytes of the UTF-8 encoding of a character. -/
def utf8Size (c : Char) : Nat :=
  if c.toNat < 128 then 1 else if c.toNat < 2048 then 2 else if c.toNat < 65536 then 3 else 4

/-- The Go function `len` on a string: the number of bytes of its UTF-8 encoding. -/
def byteLength (s : Str) : Nat := (s.map utf8Size).sum

/-- The lines a `bufio.Scanner` with the default split function and buffer delivers: the
lines before the first one whose bytes, with the newline, do not fit the buffer of
`bufio.MaxScanTokenSize` bytes, each without its trailing carriage return. -/
def scanLines (content : Str) : List Str :=
  ((rawLines content).takeWhile
    (fun l => decide (byteLength l < maxScanTokenSize))).map dropCR

/-- How `os.Stat` ends: without error, with an error for which `os.IsNotExist` holds, or
with any other error (not a directory, permission denied, name too long, ...). -/
inductive StatResult
  | ok
  | notExist
  | otherError
  deriving DecidableEq

/-- The operating-system calls of the list-deletion CLI, over a type of file-system
states: what path a string names, and when a call fails, is the operating system's
business and is not fixed here. -/
structure FileOps (σ : Type) where
  /-- The call `os.Stat(path)`. -/
  stat : σ → Str → StatResult
  /-- The bytes a scanner reads from the file `os.Open(path)` returns; empty when the file
  cannot be opened or read. The file is opened before the first removal, and removing a
  name does not change what an open file yields. -/
  read : σ → Str → Str
  /-- The call `os.Remove(path)`: the state it leaves, and whether it succeeded. -/
  remove : σ → Str → σ × Bool
  /-- The names of the entries `os.ReadDir` returns for the directory of `os.Getwd`. -/
  readDir : σ → List Str

/-- A run so far: the current state, and the `os.Remove` calls made, each with its
argument and whether it succeeded. -/
abbrev Progress (σ : Type) := σ × List (Str × Bool)

/-- One call `os.Remove(path)`; the program ignores its error. -/
def removeStep {σ : Type} (ops : FileOps σ) (acc : Progress σ) (path : Str) : Progress σ :=
  ((ops.remove acc.1 path).1, acc.2 ++ [(path, (ops.remove acc.1 path).2)])

/-- The state a sequence of `os.Remove` calls leads to. -/
def replay {σ : Type} (ops : FileOps σ) (s : σ) (calls : List (Str × Bool)) : σ :=
  calls.foldl (fun t c => (ops.remove t c.1).1) s

/-- The loop of choice 1: for every line, call `os.Remove` on it unless `os.Stat` reports
that it does not exist. -/
def deleteListed {σ : Type} (ops : FileOps σ) (start : Progress σ) (lines : List Str) :
    Progress σ :=
  lines.foldl
    (fun acc line => if ops.stat acc.1 line = StatResult.notExist then acc
      else removeStep ops acc line)
    start

/-- The loop of choice 2: call `os.Remove` on every entry of the current directory whose
name is not a key of the map `filesToKeep`. -/
def deleteOthers {σ : Type} (ops : FileOps σ) (keep : List Str) (start : Progress σ)
    (names : List Str) : Progress σ :=
  names.foldl
    (fun acc name => if decide (name ∈ keep) then acc else removeStep ops acc name)
    start

/-- The `main` of the list-deletion CLI on the three lines it reads from standard input:
the state it leaves and the `os.Remove` calls it made. -/
def ListDelete.main {σ : Type} (ops : FileOps σ) (s : σ)
    (pathLine choiceLine confirmLine : Str) : Progress σ :=
  let input := trimSpace pathLine
  if ops.stat s input = StatResult.notExist then (s, [])
  else
    let choice := trimSpace choiceLine
    let confirm := trimSpace confirmLine
    if !equalFoldY confirm then (s, [])
    else if choice = "1".toList then deleteListed ops (s, []) (scanLines (ops.read s input))
    else if choice = "2".toList then
      deleteOthers ops (scanLines (ops.read s input)) (s, []) (ops.readDir s)
    else (s, [])

/-- The laws of `os.Remove` and `os.ReadDir` on the names of a directory listing: a
successful removal of a listed name takes it out of the listing, a failed one leaves it
as it was, and no removal of a listed name touches another name. -/
def ListingLaws {σ : Type} (ops : FileOps σ) (names : List Str) : Prop :=
  (∀ t, ∀ p ∈ names, (ops.remove t p).2 = true → p ∉ ops.readDir (ops.remove t p).1) ∧
  (∀ t, ∀ p ∈ names, (ops.remove t p).2 = false →
    (p ∈ ops.readDir (ops.remove t p).1 ↔ p ∈ ops.readDir t)) ∧
  (∀ t, ∀ p ∈ names, ∀ q, q ≠ p →
    (q ∈ ops.readDir (ops.remove t p).1 ↔ q ∈ ops.readDir t))

/-! ## A small file system for the examples of the list-deletion CLI

The association-list file system above, read as the current directory: a path names the
entry stored under exactly that spelling, the entries of the directory are the paths
without a slash, and the process may do everything. -/

/-- Whether some path of the file system lies below `p`. -/
def hasChild (fs : FS) (p : Str) : Bool := fs.any (fun e => isUnder p e.1)

/-- Whether `p` lies below a regular file, so that looking it up fails with "not a
directory". -/
def underFile (fs : FS) (p : Str) : Bool :=
  fs.any (fun e =>
    match e.2 with
    | Node.file _ => isUnder e.1 p
    | Node.dir => false)

/-- Whether `os.Remove(p)` succeeds: `p` is a file or an empty directory. -/
def removable (fs : FS) (p : Str) : Bool :=
  match node fs p with
  | none => false
  | some (Node.file _) => true
  | some Node.dir => !hasChild fs p

/-- The effect of `os.Remove`: remove a file or an empty directory; on failure the file
system is unchanged. -/
def removePath (fs : FS) (p : Str) : FS :=
  if removable fs p then fs.filter (fun e => !decide (e.1 = p)) else fs

/-- The names of the entries of the current directory: the paths of the file system that
have no slash, sorted. -/
def readDir (fs : FS) : List Str :=
  ((fs.map (fun e => e.1)).filter
    (fun k => !k.isEmpty && !decide ('/' ∈ k))).insertionSort (fun a b => a ≤ b)

/-- The operating-system calls on the small file system. -/
def exampleOps : FileOps FS where
  stat := fun fs p =>
    if stat fs p then StatResult.ok
    else if underFile fs p then StatResult.otherError
    else StatResult.notExist
  read := fun fs p => contentOf fs p
  remove := fun fs p => (removePath fs p, removable fs p)
  readDir := fun fs => readDir fs

/-! ## Concrete inputs -/

/-- The environment in which the media prober prints `out` for every file and nothing
else is available. -/
def probeEnv (out : Str) : Env where
  lookPath := fun _ => false
  fzf := none
  ffprobe := fun _ => some out
  ffmpeg := fun _ _ => none
  mkdirTemp := fun _ _ => none
  numCPU := 1

/-- The two clips of the scenario of the specification: `a.mp4` and `b.mp4`. -/
def scenarioFiles : List Str := ["a.mp4".toList, "b.mp4".toList]

/-- The dimensions of the scenario: `a.mp4` is 640x480, every other file 1280x720. -/
def scenarioDims (f : Str) : Int × Int :=
  if f = "a.mp4".toList then (640, 480) else (1280, 720)

/-- The file system of the scenario: the two clips, and the temporary directory root. -/
def scenarioFS : FS :=
  [("a.mp4".toList, Node.file "AAAA".toList), ("b.mp4".toList, Node.file "BB".toList),
   ("/tmp".toList, Node.dir)]

/-- The environment of the scenario: every tool is installed and succeeds, the user
selects `a.mp4` then `b.mp4`, the prober reports the dimensions above, the transcoder
writes the text `video`, and temporary directories are `/tmp/<pattern>1`. -/
def scenarioEnv : Env where
  lookPath := fun _ => true
  fzf := some "a.mp4\nb.mp4\n".toList
  ffprobe := fun f =>
    if f = "a.mp4".toList then some "640 480\n".toList else some "1280 720\n".toList
  ffmpeg := fun _ _ => some "video".toList
  mkdirTemp := fun pattern _ => some ("/tmp/".toList ++ pattern ++ "1".toList)
  numCPU := 2

/-- The map `analyzeVideos` builds in the scenario. -/
def scenarioProps : Props :=
  [("b.mp4".toList, (1280, 720)), ("a.mp4".toList, (640, 480))]

/-- The scenario with a transcoder that always exits with a failure. -/
def failingEnv : Env := { scenarioEnv with ffmpeg := fun _ _ => none }

/-- Two distinct files with the same base name. -/
def collisionFiles : List Str := ["a/x.mp4".toList, "b/x.mp4".toList]

/-- A file system holding the two files, with different contents. -/
def collisionFS : FS :=
  [("a/x.mp4".toList, Node.file "first".toList), ("b/x.mp4".toList, Node.file "second".toList),
   ("/tmp".toList, Node.dir)]

/-- The map `analyzeVideos` builds for the two files: both are 640x480. -/
def collisionProps : Props :=
  [("b/x.mp4".toList, (640, 480)), ("a/x.mp4".toList, (640, 480))]

/-- A current directory with the list file, a file to keep, a file to delete, and a
directory that is not empty. -/
def deleteFS : FS :=
  [("list.txt".toList, Node.file "list.txt\nkeep.txt\r\n".toList),
   ("keep.txt".toList, Node.file "k".toList),
   ("junk.txt".toList, Node.file "j".toList),
   ("d".toList, Node.dir),
   ("d/x".toList, Node.file "x".toList)]

/-- The temporary directory of the normalization stage in the scenario. -/
def scenarioTmp : Str := "/tmp/normalized_videos1".toList

/-- A schedule for three files and two slots in which two workers overlap. -/
def poolSchedule : List Action :=
  [.main, .main, .main, .main, .main, .main, .body, .release, .main, .main, .main,
   .body, .done, .body, .release, .release, .done, .done,
   .main, .main, .main, .main]

/-- The state that schedule ends in: `normalizeVideos` has returned, three workers have
finished. -/
def poolDone : Pool :=
  { pc := .returned, i := 3, running := 0, returning := 0, released := 0,
    finished := 3, sem := 0, wg := 0 }

/-- The state of the pool on the two files with the same base name, once the workers have
performed their bodies in the given order and before `normalizeVideos` returns. -/
def collisionPool (order : List Nat) : NormState :=
  order.foldl (runWorker scenarioEnv scenarioTmp collisionFiles collisionProps 640 480)
    { fs := mkdir collisionFS scenarioTmp, normalizedFiles := List.replicate 2 [],
      errChan := [], trace := [] }

/-! # Theorems -/

/-! ## Facts about the standard-library models -/

theorem digitVal_digitChar (m : Nat) (hm : m < 10) : digitVal (Nat.digitChar m) = some m := by
  interval_cases m <;> rfl

theorem parseDigits_toDigitsCore (fuel : Nat) :
    ∀ (n : Nat) (ds : Str), n < fuel →
      parseDigits 0 (Nat.toDigitsCore 10 fuel n ds) = parseDigits n ds := by
  induction fuel with
  | zero => intro n ds h; omega
  | succ fuel ih =>
    intro n ds h
    simp only [Nat.toDigitsCore]
    have hd : digitVal (Nat.digitChar (n % 10)) = some (n % 10) :=
      digitVal_digitChar _ (Nat.mod_lt _ (by norm_num))
    split
    · rename_i h0
      have hn : n % 10 = n := by omega
      simp only [parseDigits, hd]
      congr 1
      omega
    · rename_i h0
      rw [ih (n / 10) _ (by omega)]
      simp only [parseDigits, hd]
      congr 1
      omega

theorem toDigitsCore_ne_nil (fuel : Nat) :
    ∀ (n : Nat) (c : Char) (ds : Str), Nat.toDigitsCore 10 fuel n (c :: ds) ≠ [] := by
  induction fuel with
  | zero => intro n c ds; simp [Nat.toDigitsCore]
  | succ fuel ih =>
    intro n c ds
    simp only [Nat.toDigitsCore]
    split
    · simp
    · exact ih _ _ _

theorem toDigits_ne_nil (n : Nat) : Nat.toDigits 10 n ≠ [] := by
  unfold Nat.toDigits
  simp only [Nat.toDigitsCore]
  split
  · simp
  · exact toDigitsCore_ne_nil _ _ _ _

theorem parseNat_toDigits (n : Nat) : parseNat (Nat.toDigits 10 n) = some n := by
  have h := parseDigits_toDigitsCore (n + 1) n [] (by omega)
  have hne := toDigits_ne_nil n
  unfold Nat.toDigits at hne ⊢
  unfold parseNat
  split
  · rename_i heq; exact absurd heq hne
  · rw [h]; rfl

theorem parseDigits_all_digits : ∀ (s : Str) (acc n : Nat), parseDigits acc s = some n →
    ∀ c ∈ s, (digitVal c).isSome = true := by
  intro s
  induction s with
  | nil => intro acc n _ c hc; simp at hc
  | cons x xs ih =>
    intro acc n h c hc
    simp only [parseDigits] at h
    cases hx : digitVal x with
    | none => simp [hx] at h
    | some d =>
      simp only [hx] at h
      rcases List.mem_cons.mp hc with rfl | hc
      · simp [hx]
      · exact ih _ _ h c hc

theorem toDigits_all_digits (n : Nat) : ∀ c ∈ Nat.toDigits 10 n, (digitVal c).isSome = true := by
  have h := parseNat_toDigits n
  unfold parseNat at h
  split at h
  · simp at h
  · exact parseDigits_all_digits _ _ _ h

theorem isSpace_of_digit (c : Char) (h : (digitVal c).isSome = true) : isSpace c = false := by
  unfold digitVal at h
  split at h
  · rename_i hc
    simp only [isSpace, Bool.or_eq_false_iff, Bool.and_eq_false_imp, beq_eq_false_iff_ne,
      decide_eq_true_eq, decide_eq_false_iff_not]
    omega
  · simp at h

theorem atoi_fmtInt (w : Int) (h0 : 0 ≤ w) (hmax : w ≤ (maxInt : Int)) :
    atoi (fmtInt w) = some w := by
  have hfmt : fmtInt w = Nat.toDigits 10 w.natAbs := by
    unfold fmtInt
    rw [if_neg (by omega)]
  have hp := parseNat_toDigits w.natAbs
  have hall := toDigits_all_digits w.natAbs
  rw [hfmt]
  have hle : w.natAbs ≤ maxInt := by omega
  have hcast : ((w.natAbs : Nat) : Int) = w := by omega
  cases hs : Nat.toDigits 10 w.natAbs with
  | nil => exact absurd hs (toDigits_ne_nil _)
  | cons c cs =>
    rw [hs] at hp hall
    have hc : (digitVal c).isSome = true := hall c (List.mem_cons_self _ _)
    have hminus : c ≠ '-' := by
      rintro rfl
      exact absurd hc (by decide)
    have hplus : c ≠ '+' := by
      rintro rfl
      exact absurd hc (by decide)
    unfold atoi
    split
    · rename_i heq
      exact absurd (List.cons.inj heq).1 hminus
    · rename_i heq
      exact absurd (List.cons.inj heq).1 hplus
    · rw [hp]
      simp only [hle, if_true, hcast]

theorem splitBy_no_sep (p : Char → Bool) :
    ∀ (w : Str), (∀ x ∈ w, p x = false) → splitBy p w = [w] := by
  intro w
  induction w with
  | nil => intro _; rfl
  | cons x xs ih =>
    intro h
    have hx : p x = false := h x (List.mem_cons_self _ _)
    have hxs := ih (fun y hy => h y (List.mem_cons_of_mem _ hy))
    simp [splitBy, hx, hxs]

theorem splitBy_append_sep (p : Char → Bool) (c : Char) (rest : Str) (hc : p c = true) :
    ∀ (w : Str), (∀ x ∈ w, p x = false) → splitBy p (w ++ c :: rest) = w :: splitBy p rest := by
  intro w
  induction w with
  | nil => intro _; simp [splitBy, hc]
  | cons x xs ih =>
    intro h
    have hx : p x = false := h x (List.mem_cons_self _ _)
    have hxs := ih (fun y hy => h y (List.mem_cons_of_mem _ hy))
    simp [splitBy, hx, hxs]

theorem trimSpace_line (a b : Str) (ha : a ≠ []) (hb : b ≠ [])
    (hna : ∀ x ∈ a, isSpace x = false) (hnb : ∀ x ∈ b, isSpace x = false) :
    trimSpace (a ++ ' ' :: b ++ ['\n']) = a ++ ' ' :: b := by
  unfold trimSpace
  obtain ⟨a0, as, rfl⟩ := List.exists_cons_of_ne_nil ha
  have h1 : List.dropWhile isSpace (a0 :: as ++ ' ' :: b ++ ['\n']) = a0 :: as ++ ' ' :: b ++ ['\n'] := by
    simp [List.dropWhile, hna a0 (List.mem_cons_self _ _)]
  rw [h1]
  have hlast : b = b.dropLast ++ [b.getLast hb] := (List.dropLast_append_getLast hb).symm
  have hl : isSpace (b.getLast hb) = false := hnb _ (List.getLast_mem hb)
  have h2 : (a0 :: as ++ ' ' :: b ++ ['\n']).reverse
      = '\n' :: b.getLast hb :: (a0 :: as ++ ' ' :: b.dropLast).reverse := by
    conv_lhs => rw [hlast]
    simp
  rw [h2]
  have hnl : isSpace '\n' = true := by decide
  simp only [List.dropWhile, hnl, hl]
  conv_rhs => rw [hlast]
  simp

theorem fields_line (a b : Str) (ha : a ≠ []) (hb : b ≠ [])
    (hna : ∀ x ∈ a, isSpace x = false) (hnb : ∀ x ∈ b, isSpace x = false) :
    fields (a ++ ' ' :: b) = [a, b] := by
  unfold fields
  rw [splitBy_append_sep isSpace ' ' b (by decide) a hna, splitBy_no_sep isSpace b hnb]
  cases a with
  | nil => exact absurd rfl ha
  | cons a0 as =>
    cases b with
    | nil => exact absurd rfl hb
    | cons b0 bs => simp

theorem fmtInt_nonneg_props (w : Int) (h0 : 0 ≤ w) :
    fmtInt w ≠ [] ∧ ∀ x ∈ fmtInt w, isSpace x = false := by
  have hfmt : fmtInt w = Nat.toDigits 10 w.natAbs := by
    unfold fmtInt
    rw [if_neg (by omega)]
  rw [hfmt]
  exact ⟨toDigits_ne_nil _, fun x hx => isSpace_of_digit x (toDigits_all_digits _ x hx)⟩

/-- C8, as stated, fails: on the comma-separated line `640,480` the prober's output is one
field, and `getVideoDimensions` returns the error "invalid output from ffprobe". -/
theorem getVideoDimensions_comma_rejected :
    getVideoDimensions (probeEnv "640,480\n".toList) "a.mp4".toList
      = .error ProbeErr.invalidOutput ∧
    getVideoDimensions (probeEnv "640,480".toList) "a.mp4".toList
      = .error ProbeErr.invalidOutput := by
  decide

/-- C8, amended: when the prober exits successfully with the single line `w h` (width and
height separated by a blank, as the separator option `s= ` requests) for positive `w` and
`h` in the range of `int`, `getVideoDimensions` returns `(w, h)`; and for every output of a
successful prober run it returns an error exactly when the output is not two
white-space separated fields that both parse as integers. -/
theorem getVideoDimensions_blank_separated (env : Env) (file : Str) (w h : Int)
    (hw : 0 < w) (hwMax : w ≤ (maxInt : Int)) (hh : 0 < h) (hhMax : h ≤ (maxInt : Int))
    (hout : env.ffprobe file = some (fmtInt w ++ ' ' :: fmtInt h ++ ['\n'])) :
    getVideoDimensions env file = .ok (w, h) ∧
    ∀ (env2 : Env) (file2 out : Str), env2.ffprobe file2 = some out →
      ((∃ e, getVideoDimensions env2 file2 = .error e) ↔
        ¬ ∃ a b wd ht, fields (trimSpace out) = [a, b] ∧ atoi a = some wd ∧ atoi b = some ht) := by
  constructor
  · obtain ⟨hwn, hws⟩ := fmtInt_nonneg_props w (le_of_lt hw)
    obtain ⟨hhn, hhs⟩ := fmtInt_nonneg_props h (le_of_lt hh)
    simp only [getVideoDimensions, hout]
    have ht : trimSpace (fmtInt w ++ ' ' :: fmtInt h ++ ['\n']) = fmtInt w ++ ' ' :: fmtInt h :=
      trimSpace_line _ _ hwn hhn hws hhs
    simp only [ht, fields_line _ _ hwn hhn hws hhs, atoi_fmtInt w (le_of_lt hw) hwMax,
      atoi_fmtInt h (le_of_lt hh) hhMax]
  · intro env2 file2 out hout2
    simp only [getVideoDimensions, hout2]
    constructor
    · rintro ⟨e, he⟩ ⟨a, b, wd, ht, hf, ha, hb⟩
      simp [hf, ha, hb] at he
    · intro hno
      split
      · rename_i a b hf
        cases ha : atoi a with
        | none => exact ⟨_, rfl⟩
        | some wd =>
          cases hb : atoi b with
          | none => exact ⟨_, rfl⟩
          | some ht => exact absurd ⟨a, b, wd, ht, hf, ha, hb⟩ hno
      · exact ⟨_, rfl⟩

/-- The amended C8 at the output `640 480` of the prober. -/
theorem getVideoDimensions_blank_separated_witness :
    getVideoDimensions (probeEnv "640 480\n".toList) "a.mp4".toList = .ok (640, 480) ∧
    ∀ (env2 : Env) (file2 out : Str), env2.ffprobe file2 = some out →
      ((∃ e, getVideoDimensions env2 file2 = .error e) ↔
        ¬ ∃ a b wd ht, fields (trimSpace out) = [a, b] ∧ atoi a = some wd ∧ atoi b = some ht) :=
  getVideoDimensions_blank_separated (probeEnv "640 480\n".toList) "a.mp4".toList 640 480
    (by decide) (by decide) (by decide) (by decide) (by decide)

theorem analyzeLoop_ok (env : Env) (fs : FS) (dims : Str → Int × Int) :
    ∀ (files : List Str) (mw mh : Int) (props : Props),
      (∀ f ∈ files, stat fs f = true) →
      (∀ f ∈ files, getVideoDimensions env f = .ok (dims f)) →
      ∃ props2, analyzeLoop env fs files mw mh props
        = .ok (files.foldl (fun m f => max m (dims f).1) mw,
               files.foldl (fun m f => max m (dims f).2) mh, props2) := by
  intro files
  induction files with
  | nil => intro mw mh props _ _; exact ⟨props, rfl⟩
  | cons f rest ih =>
    intro mw mh props hstat hprobe
    have hs : stat fs f = true := hstat f (List.mem_cons_self _ _)
    have hp : getVideoDimensions env f = .ok (dims f) := hprobe f (List.mem_cons_self _ _)
    obtain ⟨props2, h2⟩ := ih (max mw (dims f).1) (max mh (dims f).2)
      ((f, dims f) :: props)
      (fun g hg => hstat g (List.mem_cons_of_mem _ hg))
      (fun g hg => hprobe g (List.mem_cons_of_mem _ hg))
    refine ⟨props2, ?_⟩
    have e1 : (if (dims f).1 > mw then (dims f).1 else mw) = max mw (dims f).1 := by
      rw [max_def]; split_ifs <;> omega
    have e2 : (if (dims f).2 > mh then (dims f).2 else mh) = max mh (dims f).2 := by
      rw [max_def]; split_ifs <;> omega
    simp only [analyzeLoop, hs, hp, Bool.not_true, List.foldl_cons, e1, e2]
    exact h2

theorem foldl_max_ge_init (g : Str → Int) :
    ∀ (files : List Str) (m : Int), m ≤ files.foldl (fun m f => max m (g f)) m := by
  intro files
  induction files with
  | nil => intro m; exact le_refl _
  | cons f rest ih => intro m; exact le_trans (le_max_left _ _) (ih _)

theorem foldl_max_ge_mem (g : Str → Int) :
    ∀ (files : List Str) (m : Int), ∀ f ∈ files, g f ≤ files.foldl (fun m f => max m (g f)) m := by
  intro files
  induction files with
  | nil => intro m f hf; simp at hf
  | cons x rest ih =>
    intro m f hf
    rcases List.mem_cons.mp hf with rfl | hf
    · exact le_trans (le_max_right _ _) (foldl_max_ge_init g rest _)
    · exact ih _ f hf

theorem foldl_max_attained (g : Str → Int) :
    ∀ (files : List Str) (m : Int),
      files.foldl (fun m f => max m (g f)) m = m ∨
      ∃ f ∈ files, g f = files.foldl (fun m f => max m (g f)) m := by
  intro files
  induction files with
  | nil => intro m; exact Or.inl rfl
  | cons x rest ih =>
    intro m
    rcases ih (max m (g x)) with h | ⟨f, hf, hfe⟩
    · rcases max_choice m (g x) with hm | hm
      · left
        simp only [List.foldl_cons]
        rw [h, hm]
      · right
        refine ⟨x, List.mem_cons_self _ _, ?_⟩
        simp only [List.foldl_cons]
        rw [h, hm]
    · exact Or.inr ⟨f, List.mem_cons_of_mem _ hf, hfe⟩

/-- C1: for a non-empty list of files that all exist and whose probes all succeed with
positive width and height, `analyzeVideos` returns as `maxWidth` the maximum of the probed
widths (the width of one of the files, and no file is wider) and as `maxHeight` the maximum
of the probed heights; for a list of exactly one file it returns that file's own
(width, height). -/
theorem analyzeVideos_max (env : Env) (fs : FS) (files : List Str) (dims : Str → Int × Int)
    (hne : files ≠ [])
    (hstat : ∀ f ∈ files, stat fs f = true)
    (hprobe : ∀ f ∈ files, getVideoDimensions env f = .ok (dims f))
    (hpos : ∀ f ∈ files, 0 < (dims f).1 ∧ 0 < (dims f).2) :
    ∃ maxWidth maxHeight props,
      analyzeVideos env fs files = .ok (maxWidth, maxHeight, props) ∧
      (∃ f ∈ files, (dims f).1 = maxWidth) ∧ (∀ f ∈ files, (dims f).1 ≤ maxWidth) ∧
      (∃ f ∈ files, (dims f).2 = maxHeight) ∧ (∀ f ∈ files, (dims f).2 ≤ maxHeight) ∧
      (∀ f, files = [f] → (maxWidth, maxHeight) = dims f) := by
  obtain ⟨props, hprops⟩ := analyzeLoop_ok env fs dims files 0 0 [] hstat hprobe
  obtain ⟨f0, rest, rfl⟩ := List.exists_cons_of_ne_nil hne
  have hf0 := hpos f0 (List.mem_cons_self _ _)
  have hw : ∃ f ∈ f0 :: rest, (dims f).1
      = (f0 :: rest).foldl (fun m f => max m (dims f).1) 0 := by
    rcases foldl_max_attained (fun f => (dims f).1) (f0 :: rest) 0 with h | h
    · have := foldl_max_ge_mem (fun f => (dims f).1) (f0 :: rest) 0 f0 (List.mem_cons_self _ _)
      rw [h] at this
      simp only at this
      omega
    · exact h
  have hh : ∃ f ∈ f0 :: rest, (dims f).2
      = (f0 :: rest).foldl (fun m f => max m (dims f).2) 0 := by
    rcases foldl_max_attained (fun f => (dims f).2) (f0 :: rest) 0 with h | h
    · have := foldl_max_ge_mem (fun f => (dims f).2) (f0 :: rest) 0 f0 (List.mem_cons_self _ _)
      rw [h] at this
      simp only at this
      omega
    · exact h
  refine ⟨_, _, props, hprops, hw, foldl_max_ge_mem (fun f => (dims f).1) _ 0, hh,
    foldl_max_ge_mem (fun f => (dims f).2) _ 0, ?_⟩
  intro f hf
  obtain ⟨rfl, rfl⟩ := List.cons.inj hf
  simp only [List.foldl_cons, List.foldl_nil]
  rw [max_eq_right (le_of_lt hf0.1), max_eq_right (le_of_lt hf0.2)]

/-- C1 in the scenario: `a.mp4` is 640x480 and `b.mp4` is 1280x720. -/
theorem analyzeVideos_max_witness :
    ∃ maxWidth maxHeight props,
      analyzeVideos scenarioEnv scenarioFS scenarioFiles = .ok (maxWidth, maxHeight, props) ∧
      (∃ f ∈ scenarioFiles, (scenarioDims f).1 = maxWidth) ∧
      (∀ f ∈ scenarioFiles, (scenarioDims f).1 ≤ maxWidth) ∧
      (∃ f ∈ scenarioFiles, (scenarioDims f).2 = maxHeight) ∧
      (∀ f ∈ scenarioFiles, (scenarioDims f).2 ≤ maxHeight) ∧
      (∀ f, scenarioFiles = [f] → (maxWidth, maxHeight) = scenarioDims f) :=
  analyzeVideos_max scenarioEnv scenarioFS scenarioFiles scenarioDims (by decide) (by decide)
    (by decide) (by decide)

/-! ## Facts about the file system -/

theorem lookupPath_filter (pred : Str → Bool) (q : Str) :
    ∀ (fs : FS), lookupPath q (fs.filter (fun e => pred e.1))
      = if pred q = true then lookupPath q fs else none := by
  intro fs
  induction fs with
  | nil => simp [lookupPath]
  | cons e rest ih =>
    obtain ⟨k, n⟩ := e
    by_cases hk : k = q
    · subst hk
      by_cases hp : pred k = true
      · simp [List.filter, hp, lookupPath]
      · simp only [Bool.not_eq_true] at hp
        simp [List.filter, hp, lookupPath, ih]
    · by_cases hp : pred k = true
      · simp [List.filter, hp, lookupPath, hk, ih]
      · simp only [Bool.not_eq_true] at hp
        simp [List.filter, hp, lookupPath, hk, ih]

theorem node_writeFile (fs : FS) (p c q : Str) :
    node (writeFile fs p c) q
      = if q = [] then none else if p = q then some (Node.file c) else node fs q := by
  unfold node writeFile
  by_cases hq : q = []
  · simp [hq]
  · by_cases hpq : p = q
    · simp [hq, hpq, lookupPath]
    · have h := lookupPath_filter (fun k => !decide (k = p)) q fs
      have hqp : ¬ q = p := fun h => hpq h.symm
      simp only [hq, hpq, if_false, lookupPath]
      rw [h]
      simp [hqp]

theorem node_mkdir (fs : FS) (p q : Str) :
    node (mkdir fs p) q
      = if q = [] then none else if p = q then some Node.dir else node fs q := by
  unfold node mkdir
  by_cases hq : q = []
  · simp [hq]
  · by_cases hpq : p = q
    · simp [hq, hpq, lookupPath]
    · have h := lookupPath_filter (fun k => !decide (k = p)) q fs
      have hqp : ¬ q = p := fun h => hpq h.symm
      simp only [hq, hpq, if_false, lookupPath]
      rw [h]
      simp [hqp]

theorem node_removeAll (fs : FS) (d q : Str) :
    node (removeAll fs d) q
      = if q = d ∨ isUnder d q = true then none else node fs q := by
  unfold node removeAll
  have h := lookupPath_filter (fun k => !(decide (k = d) || isUnder d k)) q fs
  by_cases hq : q = []
  · simp [hq]
  · simp only [hq, if_false]
    rw [h]
    by_cases hc : q = d ∨ isUnder d q = true
    · rcases hc with hc | hc <;> simp [hc]
    · have h1 : ¬ q = d := fun h => hc (Or.inl h)
      have h2 : isUnder d q = false := by
        cases hu : isUnder d q with
        | true => exact absurd (Or.inr hu) hc
        | false => rfl
      simp [h1, h2]

theorem node_createFile (fs fs1 : FS) (p q : Str) (h : createFile fs p = some fs1) :
    p ≠ [] ∧ node fs1 q = if q = [] then none else if p = q then some (Node.file []) else node fs q := by
  unfold createFile at h
  split at h
  · simp at h
  · rename_i hp
    split at h
    · simp at h
    · simp only [Option.some.injEq] at h
      subst h
      exact ⟨hp, node_writeFile fs p [] q⟩

theorem copyFile_ok (fs fs2 : FS) (src dst : Str) (h : copyFile fs src dst = (fs2, true)) :
    ∃ c, node fs2 dst = some (Node.file c) ∧ node fs2 src = some (Node.file c) ∧
      (src ≠ dst → node fs src = some (Node.file c)) := by
  unfold copyFile at h
  split at h
  · simp at h
  · split at h
    · simp at h
    · rename_i fs1 hcreate
      obtain ⟨hdst, _⟩ := node_createFile fs fs1 dst dst hcreate
      split at h
      · rename_i c hsrc
        simp only [Prod.mk.injEq, and_true] at h
        subst h
        have hsrcne : src ≠ [] := by
          intro hs
          simp [hs, node] at hsrc
        refine ⟨c, ?_, ?_, ?_⟩
        · rw [node_writeFile]; simp [hdst]
        · rw [node_writeFile]
          by_cases hds : dst = src
          · simp [hds, hsrcne]
          · simp [hds, hsrcne, hsrc]
        · intro hne
          have := (node_createFile fs fs1 dst src hcreate).2
          rw [hsrc] at this
          have hds : ¬ dst = src := fun h => hne h.symm
          simp only [hsrcne, hds, if_false] at this
          exact this.symm
      · simp at h

/-- One worker taken on its own: when the file's recorded dimensions equal
(maxWidth, maxHeight) it performs exactly one operation, a copy of the file to its
artifact path, and right after a successful copy that path holds the bytes of the source;
otherwise it performs exactly one operation, a transcoder run with the arguments of
`ffmpegNormalize`, whose filter has scale and pad both set to maxWidth:maxHeight. What the
artifact path holds once the other workers have run is another matter. -/
theorem worker_copy_or_transcode (env : Env) (tmpDir : Str) (props : Props)
    (maxWidth maxHeight : Int) (st : NormState) (i : Nat) (file : Str) :
    (propsGet props file = (maxWidth, maxHeight) →
      ∃ ok, (worker env tmpDir props maxWidth maxHeight st i file).trace
          = st.trace ++ [Event.copy file (artifactPath tmpDir file) ok] ∧
        (ok = true →
          (worker env tmpDir props maxWidth maxHeight st i file).errChan = st.errChan ∧
          (worker env tmpDir props maxWidth maxHeight st i file).normalizedFiles
            = st.normalizedFiles.set i (artifactPath tmpDir file) ∧
          ∃ c, node (worker env tmpDir props maxWidth maxHeight st i file).fs
                (artifactPath tmpDir file) = some (Node.file c) ∧
            node (worker env tmpDir props maxWidth maxHeight st i file).fs file
                = some (Node.file c) ∧
            (file ≠ artifactPath tmpDir file → node st.fs file = some (Node.file c)))) ∧
    (propsGet props file ≠ (maxWidth, maxHeight) →
      (∃ ok, (worker env tmpDir props maxWidth maxHeight st i file).trace
          = st.trace ++ [Event.exec "ffmpeg".toList
              (scaleArgs file (artifactPath tmpDir file) maxWidth maxHeight) ok]) ∧
      (scaleArgs file (artifactPath tmpDir file) maxWidth maxHeight).get? 7
        = some ("scale=".toList ++ fmtInt maxWidth ++ ":".toList ++ fmtInt maxHeight ++
            ":force_original_aspect_ratio=decrease,pad=".toList ++ fmtInt maxWidth ++
            ":".toList ++ fmtInt maxHeight ++ ":(ow-iw)/2:(oh-ih)/2".toList)) := by
  constructor
  · intro hp
    have hcond : ¬ ((propsGet props file).1 ≠ maxWidth ∨ (propsGet props file).2 ≠ maxHeight) := by
      rw [hp]; simp
    cases hcp : copyFile st.fs file (artifactPath tmpDir file) with
    | mk fs1 ok =>
      cases ok with
      | false =>
        refine ⟨false, ?_, fun h => absurd h (by simp)⟩
        unfold artifactPath at hcp
        simp only [worker, hcond, if_false, hcp]
        rfl
      | true =>
        obtain ⟨c, h1, h2, h3⟩ := copyFile_ok _ _ _ _ hcp
        unfold artifactPath at hcp
        have hw : worker env tmpDir props maxWidth maxHeight st i file
            = { st with fs := fs1,
                        normalizedFiles := st.normalizedFiles.set i (artifactPath tmpDir file),
                        trace := st.trace ++ [Event.copy file (artifactPath tmpDir file) true] } := by
          simp only [worker, hcond, if_false, hcp]
          rfl
        rw [hw]
        exact ⟨true, rfl, fun _ => ⟨rfl, rfl, c, h1, h2, h3⟩⟩
  · intro hp
    have hcond : (propsGet props file).1 ≠ maxWidth ∨ (propsGet props file).2 ≠ maxHeight := by
      by_contra hc
      push_neg at hc
      exact hp (Prod.ext hc.1 hc.2)
    refine ⟨?_, rfl⟩
    cases hff : env.ffmpeg (scaleArgs file (artifactPath tmpDir file) maxWidth maxHeight) st.fs with
    | none =>
      refine ⟨false, ?_⟩
      unfold artifactPath at hff
      simp only [worker, hcond, if_true, ffmpegNormalize, hff]
      rfl
    | some out =>
      refine ⟨true, ?_⟩
      unfold artifactPath at hff
      simp only [worker, hcond, if_true, ffmpegNormalize, hff]
      rfl

/-! ## Facts about the normalization stage -/

theorem copyFile_frame (fs : FS) (src dst p : Str) (hp : p ≠ dst) :
    node (copyFile fs src dst).1 p = node fs p := by
  unfold copyFile
  split
  · rfl
  · split
    · rfl
    · rename_i fs1 hcreate
      have h1 := (node_createFile fs fs1 dst p hcreate).2
      have hdp : ¬ dst = p := fun h => hp h.symm
      by_cases hpe : p = []
      · split <;> simp [hpe, node]
      · simp only [hpe, hdp, if_false] at h1
        split
        · rw [node_writeFile]; simp [hpe, hdp, h1]
        · exact h1

theorem worker_cases (env : Env) (tmpDir : Str) (props : Props) (maxWidth maxHeight : Int)
    (st : NormState) (i : Nat) (file : Str) :
    ∃ fs1 ev, (∀ p, p ≠ artifactPath tmpDir file → node fs1 p = node st.fs p) ∧
      workerEvent tmpDir maxWidth maxHeight file ev ∧
      ((ev.failed = true ∧ ∃ e, worker env tmpDir props maxWidth maxHeight st i file
          = { st with fs := fs1, errChan := st.errChan ++ [e], trace := st.trace ++ [ev] }) ∨
       (ev.failed = false ∧ worker env tmpDir props maxWidth maxHeight st i file
          = { st with fs := fs1,
                      normalizedFiles := st.normalizedFiles.set i (artifactPath tmpDir file),
                      trace := st.trace ++ [ev] })) := by
  by_cases hcond : (propsGet props file).1 ≠ maxWidth ∨ (propsGet props file).2 ≠ maxHeight
  · cases hff : env.ffmpeg (scaleArgs file (artifactPath tmpDir file) maxWidth maxHeight) st.fs with
    | none =>
      refine ⟨st.fs, Event.exec "ffmpeg".toList
        (scaleArgs file (artifactPath tmpDir file) maxWidth maxHeight) false,
        fun _ _ => rfl, ⟨false, Or.inr rfl⟩, Or.inl ⟨rfl, NormErr.normalizing file, ?_⟩⟩
      unfold artifactPath at hff
      simp only [worker, hcond, if_true, ffmpegNormalize, hff]
      rfl
    | some out =>
      refine ⟨writeFile st.fs (artifactPath tmpDir file) out, Event.exec "ffmpeg".toList
        (scaleArgs file (artifactPath tmpDir file) maxWidth maxHeight) true,
        ?_, ⟨true, Or.inr rfl⟩, Or.inr ⟨rfl, ?_⟩⟩
      · intro p hp
        rw [node_writeFile]
        have : ¬ artifactPath tmpDir file = p := fun h => hp h.symm
        by_cases hpe : p = []
        · simp [hpe, node]
        · simp [hpe, this]
      · unfold artifactPath at hff
        simp only [worker, hcond, if_true, ffmpegNormalize, hff]
        rfl
  · have hfr := copyFile_frame st.fs file (artifactPath tmpDir file)
    cases hcp : copyFile st.fs file (artifactPath tmpDir file) with
    | mk fs1 ok =>
      rw [hcp] at hfr
      cases ok with
      | false =>
        refine ⟨fs1, Event.copy file (artifactPath tmpDir file) false, hfr,
          ⟨false, Or.inl rfl⟩, Or.inl ⟨rfl, NormErr.copying file, ?_⟩⟩
        unfold artifactPath at hcp
        simp only [worker, hcond, if_false, hcp]
        rfl
      | true =>
        refine ⟨fs1, Event.copy file (artifactPath tmpDir file) true, hfr,
          ⟨true, Or.inl rfl⟩, Or.inr ⟨rfl, ?_⟩⟩
        unfold artifactPath at hcp
        simp only [worker, hcond, if_false, hcp]
        rfl

theorem foldl_preserves {α β : Type} (f : α → β → α) (P : α → Prop)
    (hstep : ∀ a b, P a → P (f a b)) : ∀ (l : List β) (a : α), P a → P (l.foldl f a) := by
  intro l
  induction l with
  | nil => intro a ha; exact ha
  | cons b rest ih => intro a ha; exact ih _ (hstep a b ha)

theorem runWorker_inv (env : Env) (fs0 : FS) (tmpDir : Str) (files : List Str) (props : Props)
    (maxWidth maxHeight : Int) (st : NormState) (i : Nat)
    (h : PoolInv fs0 tmpDir files maxWidth maxHeight st) :
    PoolInv fs0 tmpDir files maxWidth maxHeight
      (runWorker env tmpDir files props maxWidth maxHeight st i) := by
  unfold runWorker
  cases hf : files.get? i with
  | none => exact h
  | some file =>
    have hmem : file ∈ files := List.get?_mem hf
    obtain ⟨hlen, herr, hev, hfs⟩ := h
    obtain ⟨fs1, ev, hframe, hwe, hcase⟩ :=
      worker_cases env tmpDir props maxWidth maxHeight st i file
    simp only
    rcases hcase with ⟨hfail, e, hw⟩ | ⟨hok, hw⟩
    · rw [hw]
      refine ⟨hlen, ?_, ?_, ?_⟩
      · constructor
        · intro hnil; simp at hnil
        · intro hall
          have := hall ev (by simp)
          rw [hfail] at this
          exact absurd this (by simp)
      · intro ev2 hev2
        simp only [List.mem_append, List.mem_singleton] at hev2
        rcases hev2 with h2 | rfl
        · exact hev ev2 h2
        · exact ⟨file, hmem, hwe⟩
      · intro p hp
        simp only
        rw [hframe p (hp file hmem)]
        exact hfs p hp
    · rw [hw]
      refine ⟨by simp [hlen], ?_, ?_, ?_⟩
      · simp only
        constructor
        · intro hnil ev2 hev2
          simp only [List.mem_append, List.mem_singleton] at hev2
          rcases hev2 with h2 | rfl
          · exact herr.mp hnil ev2 h2
          · exact hok
        · intro hall
          exact herr.mpr (fun ev2 h2 => hall ev2 (by simp [h2]))
      · intro ev2 hev2
        simp only [List.mem_append, List.mem_singleton] at hev2
        rcases hev2 with h2 | rfl
        · exact hev ev2 h2
        · exact ⟨file, hmem, hwe⟩
      · intro p hp
        simp only
        rw [hframe p (hp file hmem)]
        exact hfs p hp

theorem foldl_slots (env : Env) (tmpDir : Str) (files : List Str) (props : Props)
    (maxWidth maxHeight : Int) :
    ∀ (order : List Nat) (st : NormState) (S : Nat → Prop),
      st.normalizedFiles.length = files.length →
      (st.errChan = [] → ∀ i, S i → i < files.length →
        st.normalizedFiles.get? i = (files.get? i).map (artifactPath tmpDir)) →
      ((order.foldl (runWorker env tmpDir files props maxWidth maxHeight) st).errChan = [] →
        ∀ i, (S i ∨ i ∈ order) → i < files.length →
          (order.foldl (runWorker env tmpDir files props maxWidth maxHeight) st).normalizedFiles.get? i
            = (files.get? i).map (artifactPath tmpDir)) := by
  intro order
  induction order with
  | nil =>
    intro st S _ h hnil i hi hlt
    rcases hi with hi | hi
    · exact h hnil i hi hlt
    · simp at hi
  | cons j rest ih =>
    intro st S hlen h
    simp only [List.foldl_cons]
    have key : (runWorker env tmpDir files props maxWidth maxHeight st j).normalizedFiles.length
          = files.length ∧
        ((runWorker env tmpDir files props maxWidth maxHeight st j).errChan = [] →
          ∀ i, (S i ∨ i = j) → i < files.length →
            (runWorker env tmpDir files props maxWidth maxHeight st j).normalizedFiles.get? i
              = (files.get? i).map (artifactPath tmpDir)) := by
      unfold runWorker
      cases hf : files.get? j with
      | none =>
        refine ⟨hlen, fun hnil i hi hlt => ?_⟩
        rcases hi with hi | rfl
        · exact h hnil i hi hlt
        · have := List.get?_eq_none.mp hf
          omega
      | some file =>
        obtain ⟨fs1, ev, _, _, hcase⟩ :=
          worker_cases env tmpDir props maxWidth maxHeight st j file
        simp only
        rcases hcase with ⟨_, e, hw⟩ | ⟨_, hw⟩
        · rw [hw]
          exact ⟨hlen, fun hnil => by simp at hnil⟩
        · rw [hw]
          refine ⟨by simp [hlen], fun hnil i hi hlt => ?_⟩
          simp only at hnil ⊢
          by_cases hij : i = j
          · subst hij
            rw [hf]
            simp [List.getElem?_set, hlen, hlt]
          · have hi2 : S i := by
              rcases hi with hi | hi
              · exact hi
              · exact absurd hi hij
            have := h hnil i hi2 hlt
            rw [← this]
            simp [List.getElem?_set, Ne.symm hij]
    intro hnil i hi hlt
    refine ih _ (fun i => S i ∨ i = j) key.1 key.2 hnil i ?_ hlt
    rcases hi with hi | hi
    · exact Or.inl (Or.inl hi)
    · rcases List.mem_cons.mp hi with rfl | hi
      · exact Or.inl (Or.inr rfl)
      · exact Or.inr hi

/-! ## Facts about cleaned paths -/

theorem splitBy_ne_nil (p : Char → Bool) : ∀ (s : Str), splitBy p s ≠ [] := by
  intro s
  induction s with
  | nil => simp [splitBy]
  | cons x xs ih =>
    unfold splitBy
    split
    · simp
    · split <;> simp

theorem splitBy_append (p : Char → Bool) (c : Char) (b : Str) (hc : p c = true) :
    ∀ (a : Str), splitBy p (a ++ c :: b) = splitBy p a ++ splitBy p b := by
  intro a
  induction a with
  | nil => simp [splitBy, hc]
  | cons x xs ih =>
    by_cases hx : p x = true
    · simp [splitBy, hx, ih]
    · simp only [Bool.not_eq_true] at hx
      obtain ⟨w, ws, hw⟩ := List.exists_cons_of_ne_nil (splitBy_ne_nil p xs)
      simp [splitBy, hx, ih, hw]

theorem joinSlash_concat (e : Str) :
    ∀ (xs : List Str), xs ≠ [] → joinSlash (xs ++ [e]) = joinSlash xs ++ '/' :: e := by
  intro xs
  induction xs with
  | nil => intro h; exact absurd rfl h
  | cons a rest ih =>
    intro _
    cases rest with
    | nil => simp [joinSlash]
    | cons b rest2 =>
      have := ih (by simp)
      simp only [List.cons_append] at this ⊢
      simp [joinSlash, this]

theorem base_cases (p : Str) : base p = ['/'] ∨ ∀ c ∈ base p, (c == '/') = false := by
  unfold base
  split
  · right; decide
  · simp only
    split
    · left; rfl
    · right
      intro c hc
      rw [List.mem_reverse] at hc
      have := List.mem_takeWhile_imp hc
      simpa using this

theorem cleanPush_name (rooted : Bool) (stack : List Str) (file : Str) :
    ∃ elem, (splitBy (fun c => c == '/') ("normalized_".toList ++ base file)).foldl
        (cleanPush rooted) stack = elem :: stack := by
  have hpush : ∀ (rest : Str), cleanPush rooted stack ("normalized_".toList ++ rest)
      = ("normalized_".toList ++ rest) :: stack := by
    intro rest
    unfold cleanPush
    have h1 : ¬ ("normalized_".toList ++ rest = [] ∨ "normalized_".toList ++ rest = ['.']) := by
      simp [String.toList]
    have h2 : ¬ ("normalized_".toList ++ rest = ['.', '.']) := by
      simp [String.toList]
    rw [if_neg h1, if_neg h2]
  have hpre : ∀ x ∈ "normalized_".toList, (x == '/') = false := by decide
  rcases base_cases file with hb | hb
  · refine ⟨"normalized_".toList, ?_⟩
    rw [hb]
    have : splitBy (fun c => c == '/') ("normalized_".toList ++ ['/'])
        = ["normalized_".toList, []] := by decide
    rw [this]
    have h := hpush []
    rw [List.append_nil] at h
    show cleanPush rooted (cleanPush rooted stack "normalized_".toList) [] = _
    rw [h]
    simp [cleanPush]
  · refine ⟨"normalized_".toList ++ base file, ?_⟩
    have hns : ∀ x ∈ "normalized_".toList ++ base file, (fun c => c == '/') x = false := by
      intro x hx
      rcases List.mem_append.mp hx with h | h
      · exact hpre x h
      · exact hb x h
    rw [splitBy_no_sep _ _ hns]
    exact hpush (base file)

theorem clean_rooted (p : Str) (hr : p.head? = some '/') :
    clean p = '/' :: joinSlash
      ((splitBy (fun c => c == '/') p).foldl (cleanPush true) []).reverse := by
  unfold clean
  simp [hr]

theorem clean_relative (p : Str) (hr : ¬ p.head? = some '/') :
    clean p = if ((splitBy (fun c => c == '/') p).foldl (cleanPush false) []).reverse = []
      then ['.']
      else joinSlash ((splitBy (fun c => c == '/') p).foldl (cleanPush false) []).reverse := by
  unfold clean
  simp [hr]

theorem clean_join_name (tmpDir file : Str) (hclean : clean tmpDir = tmpDir)
    (hdot : tmpDir ≠ ['.']) (hroot : tmpDir ≠ ['/']) :
    ∃ elem, clean (tmpDir ++ '/' :: ("normalized_".toList ++ base file))
      = tmpDir ++ '/' :: elem := by
  have hne : tmpDir ≠ [] := by
    intro h
    rw [h] at hclean
    exact absurd hclean (by decide)
  obtain ⟨t0, ts, rfl⟩ := List.exists_cons_of_ne_nil hne
  have hsplit := splitBy_append (fun c => c == '/') '/' ("normalized_".toList ++ base file)
    (by decide) (t0 :: ts)
  have hhead : (t0 :: ts ++ '/' :: ("normalized_".toList ++ base file)).head?
      = (t0 :: ts).head? := rfl
  by_cases hr : (t0 :: ts).head? = some '/'
  · obtain ⟨elem, helem⟩ := cleanPush_name true
      ((splitBy (fun c => c == '/') (t0 :: ts)).foldl (cleanPush true) []) file
    refine ⟨elem, ?_⟩
    rw [clean_rooted _ hr] at hclean
    rw [clean_rooted _ (hhead.trans hr), hsplit, List.foldl_append, helem, List.reverse_cons]
    have hk : ((splitBy (fun c => c == '/') (t0 :: ts)).foldl (cleanPush true) []).reverse
        ≠ [] := by
      intro hnil
      rw [hnil] at hclean
      exact hroot hclean.symm
    rw [joinSlash_concat elem _ hk]
    conv_rhs => rw [← hclean]
    simp
  · obtain ⟨elem, helem⟩ := cleanPush_name false
      ((splitBy (fun c => c == '/') (t0 :: ts)).foldl (cleanPush false) []) file
    refine ⟨elem, ?_⟩
    rw [clean_relative _ hr] at hclean
    have hr2 : ¬ (t0 :: ts ++ '/' :: ("normalized_".toList ++ base file)).head? = some '/' := by
      rw [hhead]; exact hr
    rw [clean_relative _ hr2, hsplit, List.foldl_append, helem, List.reverse_cons]
    have hk : ((splitBy (fun c => c == '/') (t0 :: ts)).foldl (cleanPush false) []).reverse
        ≠ [] := by
      intro hnil
      rw [if_pos hnil] at hclean
      exact hdot hclean.symm
    rw [if_neg hk] at hclean
    rw [if_neg (by simp), joinSlash_concat elem _ hk]
    conv_rhs => rw [← hclean]

/-- An artifact path lies below the temporary directory, when that directory is a cleaned
path other than `.` and `/`. -/
theorem artifact_under (tmpDir file : Str) (hclean : clean tmpDir = tmpDir)
    (hdot : tmpDir ≠ ['.']) (hroot : tmpDir ≠ ['/']) :
    isUnder tmpDir (artifactPath tmpDir file) = true := by
  have hne : tmpDir ≠ [] := by
    intro h
    rw [h] at hclean
    exact absurd hclean (by decide)
  obtain ⟨elem, helem⟩ := clean_join_name tmpDir file hclean hdot hroot
  unfold artifactPath joinPath isUnder
  have hname : ¬ ("normalized_".toList ++ base file = []) := by simp [String.toList]
  rw [if_neg (fun h => hne h.1), if_neg hne, if_neg hname, helem]
  rw [List.isPrefixOf_iff_prefix]
  exact ⟨elem, by simp⟩

theorem poolInv_init (fs : FS) (tmpDir : Str) (files : List Str) (maxWidth maxHeight : Int) :
    PoolInv (mkdir fs tmpDir) tmpDir files maxWidth maxHeight
      { fs := mkdir fs tmpDir, normalizedFiles := List.replicate files.length [],
        errChan := [], trace := [] } := by
  refine ⟨by simp, ?_, ?_, fun _ _ => rfl⟩
  · simp
  · intro ev hev; simp at hev

theorem poolInv_foldl (env : Env) (fs : FS) (tmpDir : Str) (files : List Str) (props : Props)
    (maxWidth maxHeight : Int) (order : List Nat) :
    PoolInv (mkdir fs tmpDir) tmpDir files maxWidth maxHeight
      (order.foldl (runWorker env tmpDir files props maxWidth maxHeight)
        { fs := mkdir fs tmpDir, normalizedFiles := List.replicate files.length [],
          errChan := [], trace := [] }) :=
  foldl_preserves _ (PoolInv (mkdir fs tmpDir) tmpDir files maxWidth maxHeight)
    (fun st i h => runWorker_inv env (mkdir fs tmpDir) tmpDir files props maxWidth maxHeight st i h)
    order _ (poolInv_init fs tmpDir files maxWidth maxHeight)

theorem normalizeVideos_run (env : Env) (fs : FS) (files : List Str) (props : Props)
    (maxWidth maxHeight : Int) (order : List Nat) (tmpDir : Str)
    (htmp : env.mkdirTemp "normalized_videos".toList fs = some tmpDir) :
    ∃ st, st = order.foldl (runWorker env tmpDir files props maxWidth maxHeight)
        { fs := mkdir fs tmpDir, normalizedFiles := List.replicate files.length [],
          errChan := [], trace := [] } ∧
      (normalizeVideos env fs files props maxWidth maxHeight order).fs = removeAll st.fs tmpDir ∧
      (normalizeVideos env fs files props maxWidth maxHeight order).trace = st.trace ∧
      (normalizeVideos env fs files props maxWidth maxHeight order).result
        = (match st.errChan with
           | e :: _ => .error e
           | [] => .ok st.normalizedFiles) := by
  refine ⟨_, rfl, ?_, ?_, ?_⟩ <;>
  · simp only [normalizeVideos, htmp]
    split <;> rename_i h <;> simp [h]

theorem selectVideoFiles_ne_nil (env : Env) (files : List Str)
    (h : selectVideoFiles env = some files) : files ≠ [] := by
  unfold selectVideoFiles at h
  split at h
  · simp at h
  · simp only [Option.some.injEq] at h
    subst h
    exact splitBy_ne_nil _ _

/-- C4: `normalizeVideos` returns an error exactly when the temporary directory could not
be created or the copy or transcode step of some worker failed; whenever it created the
temporary directory, that directory and everything below it are absent when it returns;
and a run of `main` whose normalization returns an error ends there: `mergeVideos` is not
called (no manifest, only workers' operations were run), and the file system is the
initial one without the temporary directory, so no output file was created. -/
theorem normalizeVideos_failure (env : Env) (fs : FS) (files : List Str) (props : Props)
    (maxWidth maxHeight : Int) (order : List Nat) :
    ((∃ e, (normalizeVideos env fs files props maxWidth maxHeight order).result = .error e) ↔
      (env.mkdirTemp "normalized_videos".toList fs = none ∨
        ∃ ev ∈ (normalizeVideos env fs files props maxWidth maxHeight order).trace,
          ev.failed = true)) ∧
    (∀ tmpDir, env.mkdirTemp "normalized_videos".toList fs = some tmpDir →
      ∀ p, (p = tmpDir ∨ isUnder tmpDir p = true) →
        node (normalizeVideos env fs files props maxWidth maxHeight order).fs p = none) ∧
    (∀ (outputName : Str) (e : NormErr),
      checkDependencies env ["fzf".toList, "ffmpeg".toList, "ffprobe".toList] = [] →
      selectVideoFiles env = some files →
      analyzeVideos env fs files = .ok (maxWidth, maxHeight, props) →
      (normalizeVideos env fs files props maxWidth maxHeight order).result = .error e →
      main env fs outputName order
        = { outcome := .normalizeFailed e,
            fs := (normalizeVideos env fs files props maxWidth maxHeight order).fs,
            trace := (normalizeVideos env fs files props maxWidth maxHeight order).trace,
            manifest := none } ∧
      (∀ ev ∈ (main env fs outputName order).trace,
        ∃ f ∈ files, workerEvent
          ((env.mkdirTemp "normalized_videos".toList fs).getD []) maxWidth maxHeight f ev) ∧
      (∀ tmpDir, env.mkdirTemp "normalized_videos".toList fs = some tmpDir →
        clean tmpDir = tmpDir → tmpDir ≠ ['.'] → tmpDir ≠ ['/'] →
        ∀ p, node (main env fs outputName order).fs p
          = if p = tmpDir ∨ isUnder tmpDir p = true then none else node fs p)) := by
  have hmain : ∀ (outputName : Str) (e : NormErr),
      checkDependencies env ["fzf".toList, "ffmpeg".toList, "ffprobe".toList] = [] →
      selectVideoFiles env = some files →
      analyzeVideos env fs files = .ok (maxWidth, maxHeight, props) →
      (normalizeVideos env fs files props maxWidth maxHeight order).result = .error e →
      main env fs outputName order
        = { outcome := .normalizeFailed e,
            fs := (normalizeVideos env fs files props maxWidth maxHeight order).fs,
            trace := (normalizeVideos env fs files props maxWidth maxHeight order).trace,
            manifest := none } := by
    intro outputName e hdeps hsel han herr
    have hne := selectVideoFiles_ne_nil env files hsel
    have hlen : ¬ files.length = 0 := fun h => hne (List.length_eq_zero.mp h)
    simp only [main, hdeps, hsel, hlen, if_false, han, herr]
  cases htmp : env.mkdirTemp "normalized_videos".toList fs with
  | none =>
    have hres : (normalizeVideos env fs files props maxWidth maxHeight order).result
        = .error NormErr.tempDir := by
      simp only [normalizeVideos, htmp]
    have htr : (normalizeVideos env fs files props maxWidth maxHeight order).trace = [] := by
      simp only [normalizeVideos, htmp]
    refine ⟨⟨fun _ => Or.inl rfl, fun _ => ⟨_, hres⟩⟩, fun tmpDir h => by simp at h, ?_⟩
    intro outputName e hdeps hsel han herr
    have hm := hmain outputName e hdeps hsel han herr
    refine ⟨hm, ?_, fun tmpDir h => by simp at h⟩
    rw [hm]
    simp only [htr]
    intro ev hev
    simp at hev
  | some tmpDir =>
    obtain ⟨st, hst, hfs, htr, hres⟩ :=
      normalizeVideos_run env fs files props maxWidth maxHeight order tmpDir htmp
    have hinv := poolInv_foldl env fs tmpDir files props maxWidth maxHeight order
    rw [← hst] at hinv
    obtain ⟨_, herrIff, hevs, hframe⟩ := hinv
    have hgone : ∀ p, (p = tmpDir ∨ isUnder tmpDir p = true) →
        node (normalizeVideos env fs files props maxWidth maxHeight order).fs p = none := by
      intro p hp
      rw [hfs, node_removeAll, if_pos hp]
    refine ⟨?_, ?_, ?_⟩
    · rw [hres, htr]
      constructor
      · rintro ⟨e, he⟩
        right
        by_contra hno
        push_neg at hno
        have hnil : st.errChan = [] :=
          herrIff.mpr (fun ev hev => by
            cases hf : ev.failed with
            | false => rfl
            | true => exact absurd hf (hno ev hev))
        rw [hnil] at he
        simp at he
      · rintro (h | ⟨ev, hev, hfail⟩)
        · simp at h
        · cases hch : st.errChan with
          | nil =>
            have := herrIff.mp hch ev hev
            rw [hfail] at this
            exact absurd this (by simp)
          | cons e rest => exact ⟨e, rfl⟩
    · intro t ht
      simp only [Option.some.injEq] at ht
      subst ht
      exact hgone
    · intro outputName e hdeps hsel han herr
      have hm := hmain outputName e hdeps hsel han herr
      refine ⟨hm, ?_, ?_⟩
      · rw [hm]
        simp only [htr, Option.getD_some]
        exact hevs
      · intro t ht hclean hdot hroot p
        simp only [Option.some.injEq] at ht
        subst ht
        rw [hm]
        simp only
        rw [hfs, node_removeAll]
        by_cases hp : p = tmpDir ∨ isUnder tmpDir p = true
        · rw [if_pos hp, if_pos hp]
        · rw [if_neg hp, if_neg hp]
          have hnot : ∀ f ∈ files, p ≠ artifactPath tmpDir f := by
            intro f _ hpf
            apply hp
            right
            rw [hpf]
            exact artifact_under tmpDir f hclean hdot hroot
          rw [hframe p hnot, node_mkdir]
          have h1 : ¬ tmpDir = p := fun h => hp (Or.inl h.symm)
          by_cases hpe : p = []
          · simp [hpe, node]
          · simp [hpe, h1]

/-- C4 in the scenario with a failing transcoder: the run ends after normalization, and
the file system is the initial one without the temporary directory. -/
theorem normalizeVideos_failure_witness :
    (∀ p, (p = "/tmp/normalized_videos1".toList ∨
        isUnder "/tmp/normalized_videos1".toList p = true) →
      node (normalizeVideos failingEnv scenarioFS scenarioFiles scenarioProps 1280 720
        [1, 0]).fs p = none) ∧
    main failingEnv scenarioFS "out.mp4".toList [1, 0]
      = { outcome := .normalizeFailed (NormErr.normalizing "a.mp4".toList),
          fs := (normalizeVideos failingEnv scenarioFS scenarioFiles scenarioProps 1280 720
                  [1, 0]).fs,
          trace := (normalizeVideos failingEnv scenarioFS scenarioFiles scenarioProps 1280 720
                  [1, 0]).trace,
          manifest := none } ∧
    (∀ ev ∈ (main failingEnv scenarioFS "out.mp4".toList [1, 0]).trace,
      ∃ f ∈ scenarioFiles, workerEvent
        ((failingEnv.mkdirTemp "normalized_videos".toList scenarioFS).getD []) 1280 720 f ev) ∧
    (∀ p, node (main failingEnv scenarioFS "out.mp4".toList [1, 0]).fs p
      = if p = "/tmp/normalized_videos1".toList ∨
          isUnder "/tmp/normalized_videos1".toList p = true then none
        else node scenarioFS p) :=
  ⟨(normalizeVideos_failure failingEnv scenarioFS scenarioFiles scenarioProps 1280 720
      [1, 0]).2.1 "/tmp/normalized_videos1".toList (by decide),
   ((normalizeVideos_failure failingEnv scenarioFS scenarioFiles scenarioProps 1280 720
      [1, 0]).2.2 "out.mp4".toList (NormErr.normalizing "a.mp4".toList)
      (by decide) (by decide) (by decide) (by decide)).1,
   ((normalizeVideos_failure failingEnv scenarioFS scenarioFiles scenarioProps 1280 720
      [1, 0]).2.2 "out.mp4".toList (NormErr.normalizing "a.mp4".toList)
      (by decide) (by decide) (by decide) (by decide)).2.1,
   ((normalizeVideos_failure failingEnv scenarioFS scenarioFiles scenarioProps 1280 720
      [1, 0]).2.2 "out.mp4".toList (NormErr.normalizing "a.mp4".toList)
      (by decide) (by decide) (by decide) (by decide)).2.2 "/tmp/normalized_videos1".toList
      (by decide) (by decide) (by decide) (by decide)⟩

/-! ## Facts about the concatenation stage -/

theorem stat_writeFile (fs : FS) (p c q : Str) (h : stat fs q = true) :
    stat (writeFile fs p c) q = true := by
  unfold stat at h ⊢
  rw [node_writeFile]
  have hq : q ≠ [] := by
    intro hq
    simp [hq, node] at h
  by_cases hpq : p = q
  · simp [hq, hpq]
  · simp [hq, hpq, h]

theorem stat_mkdir (fs : FS) (p q : Str) (h : stat fs q = true) :
    stat (mkdir fs p) q = true := by
  unfold stat at h ⊢
  rw [node_mkdir]
  have hq : q ≠ [] := by
    intro hq
    simp [hq, node] at h
  by_cases hpq : p = q
  · simp [hq, hpq]
  · simp [hq, hpq, h]

theorem mergeLoop_all (concatFile : Str) (hc : concatFile ≠ []) :
    ∀ (files : List Str) (fs : FS) (c0 : Str),
      node fs concatFile = some (Node.file c0) →
      (∀ f ∈ files, stat fs f = true) →
      ∃ fs2, mergeLoop concatFile files fs = (fs2, none) ∧
        node fs2 concatFile = some (Node.file (c0 ++ (files.map manifestLine).flatten)) := by
  intro files
  induction files with
  | nil =>
    intro fs c0 hnode _
    exact ⟨fs, rfl, by simpa using hnode⟩
  | cons f rest ih =>
    intro fs c0 hnode hall
    have hf : stat fs f = true := hall f (List.mem_cons_self _ _)
    have happ : appendFile fs concatFile (manifestLine f)
        = writeFile fs concatFile (c0 ++ manifestLine f) := by
      simp only [appendFile, hnode]
    have hnode2 : node (appendFile fs concatFile (manifestLine f)) concatFile
        = some (Node.file (c0 ++ manifestLine f)) := by
      rw [happ, node_writeFile]
      simp [hc]
    have hall2 : ∀ g ∈ rest, stat (appendFile fs concatFile (manifestLine f)) g = true := by
      intro g hg
      rw [happ]
      exact stat_writeFile _ _ _ _ (hall g (List.mem_cons_of_mem _ hg))
    obtain ⟨fs2, h1, h2⟩ := ih _ _ hnode2 hall2
    refine ⟨fs2, ?_, ?_⟩
    · simp only [mergeLoop, hf, Bool.not_true]
      exact h1
    · rw [h2]
      simp [List.append_assoc]

theorem mergeVideos_manifest (env : Env) (fs : FS) (files : List Str) (output dir : Str)
    (hdir : env.mkdirTemp "concat".toList fs = some dir)
    (hcreate : createFile (mkdir fs dir) (joinPath dir "concat_list.txt".toList) ≠ none)
    (hall : ∀ f ∈ files, stat fs f = true) :
    (mergeVideos env fs files output).manifest = (files.map manifestLine).flatten := by
  cases hcr : createFile (mkdir fs dir) (joinPath dir "concat_list.txt".toList) with
  | none => exact absurd hcr hcreate
  | some fs1 =>
    obtain ⟨hne, _⟩ := node_createFile _ _ _ [] hcr
    have hnode : node fs1 (joinPath dir "concat_list.txt".toList) = some (Node.file []) := by
      rw [(node_createFile _ _ _ _ hcr).2, if_neg hne, if_pos rfl]
    have hall1 : ∀ f ∈ files, stat fs1 f = true := by
      intro f hf
      have h1 := stat_mkdir fs dir f (hall f hf)
      unfold createFile at hcr
      rw [if_neg hne] at hcr
      split at hcr
      · simp at hcr
      · simp only [Option.some.injEq] at hcr
        subst hcr
        exact stat_writeFile _ _ _ _ h1
    obtain ⟨fs2, hloop, hcontent⟩ := mergeLoop_all _ hne files fs1 [] hnode hall1
    have hman : contentOf fs2 (joinPath dir "concat_list.txt".toList)
        = (files.map manifestLine).flatten := by
      simp only [contentOf, hcontent, List.nil_append]
    simp only [mergeVideos, hdir, hcr, hloop]
    split <;> exact hman

theorem normalizeVideos_ok_slots (env : Env) (fs : FS) (files : List Str) (props : Props)
    (maxWidth maxHeight : Int) (order : List Nat) (tmpDir : Str) (r : List Str)
    (hperm : order.Perm (List.range files.length))
    (htmp : env.mkdirTemp "normalized_videos".toList fs = some tmpDir)
    (hok : (normalizeVideos env fs files props maxWidth maxHeight order).result = .ok r) :
    r.length = files.length ∧
    (∀ i, r.get? i = (files.get? i).map (artifactPath tmpDir)) ∧
    r = files.map (artifactPath tmpDir) := by
  obtain ⟨st, hst, _, _, hres⟩ :=
    normalizeVideos_run env fs files props maxWidth maxHeight order tmpDir htmp
  have hinv := poolInv_foldl env fs tmpDir files props maxWidth maxHeight order
  rw [← hst] at hinv
  have hlen := hinv.1
  rw [hres] at hok
  have hnil : st.errChan = [] := by
    cases hch : st.errChan with
    | nil => rfl
    | cons e rest => rw [hch] at hok; simp at hok
  rw [hnil] at hok
  simp only [Except.ok.injEq] at hok
  subst hok
  have hslots := foldl_slots env tmpDir files props maxWidth maxHeight order
    { fs := mkdir fs tmpDir, normalizedFiles := List.replicate files.length [],
      errChan := [], trace := [] } (fun _ => False) (by simp)
    (fun _ i hi _ => absurd hi (by simp))
  rw [← hst] at hslots
  have hget : ∀ i, st.normalizedFiles.get? i = (files.get? i).map (artifactPath tmpDir) := by
    intro i
    by_cases hi : i < files.length
    · exact hslots hnil i (Or.inr (hperm.mem_iff.mpr (List.mem_range.mpr hi))) hi
    · have h1 : st.normalizedFiles.get? i = none := List.get?_eq_none.mpr (by omega)
      have h2 : files.get? i = none := List.get?_eq_none.mpr (by omega)
      rw [h1, h2]
      rfl
  refine ⟨hlen, hget, ?_⟩
  apply List.ext_get?
  intro i
  rw [hget i]
  simp [List.getElem?_map]

/-- Every artifact path `normalizeVideos` returns names nothing when it returns: the
deferred `os.RemoveAll(tmpDir)` has removed the temporary directory with its content. -/
theorem normalizeVideos_artifacts_gone (env : Env) (fs : FS) (files : List Str)
    (props : Props) (maxWidth maxHeight : Int) (order : List Nat) (tmpDir : Str)
    (r : List Str)
    (hperm : order.Perm (List.range files.length))
    (htmp : env.mkdirTemp "normalized_videos".toList fs = some tmpDir)
    (hclean : clean tmpDir = tmpDir) (hdot : tmpDir ≠ ['.']) (hroot : tmpDir ≠ ['/'])
    (hok : (normalizeVideos env fs files props maxWidth maxHeight order).result = .ok r) :
    ∀ a ∈ r, stat (normalizeVideos env fs files props maxWidth maxHeight order).fs a = false := by
  obtain ⟨_, _, hmap⟩ :=
    normalizeVideos_ok_slots env fs files props maxWidth maxHeight order tmpDir r hperm htmp hok
  obtain ⟨st, _, hfs, _, _⟩ :=
    normalizeVideos_run env fs files props maxWidth maxHeight order tmpDir htmp
  intro a ha
  rw [hmap] at ha
  obtain ⟨f, _, rfl⟩ := List.mem_map.mp ha
  unfold stat
  rw [hfs, node_removeAll, if_pos (Or.inr (artifact_under tmpDir f hclean hdot hroot))]
  rfl

/-- C3 fails on the code: in the scenario `normalizeVideos` succeeds and returns the two
artifact paths in selection order, whatever the order in which the workers complete, but
the text `mergeVideos` writes to the manifest in that run is empty, not the two lines
`file '<path>'` for those paths: the artifacts were removed when `normalizeVideos`
returned (the defect of C2), so `mergeVideos` stops at its check of the first one. -/
theorem manifest_not_written :
    (normalizeVideos scenarioEnv scenarioFS scenarioFiles scenarioProps 1280 720 [0, 1]).result
      = .ok ["/tmp/normalized_videos1/normalized_a.mp4".toList,
             "/tmp/normalized_videos1/normalized_b.mp4".toList] ∧
    (normalizeVideos scenarioEnv scenarioFS scenarioFiles scenarioProps 1280 720 [1, 0]).result
      = .ok ["/tmp/normalized_videos1/normalized_a.mp4".toList,
             "/tmp/normalized_videos1/normalized_b.mp4".toList] ∧
    (main scenarioEnv scenarioFS "out.mp4".toList [0, 1]).manifest = some [] ∧
    (main scenarioEnv scenarioFS "out.mp4".toList [1, 0]).manifest = some [] ∧
    (["/tmp/normalized_videos1/normalized_a.mp4".toList,
      "/tmp/normalized_videos1/normalized_b.mp4".toList].map manifestLine).flatten ≠ [] := by
  decide

/-- C2 fails on the code: in the scenario every probe and every worker succeeds and
`normalizeVideos` returns the two artifact paths, but neither names a file any more when
it has returned; `mergeVideos` therefore returns "normalized file ... not found" for the
first one, the transcoder is never run on the manifest, no output file exists, and `main`
ends with "Error merging videos" instead of the success message, in either completion
order of the workers. -/
theorem artifacts_removed_before_merge :
    (normalizeVideos scenarioEnv scenarioFS scenarioFiles scenarioProps 1280 720 [0, 1]).result
      = .ok ["/tmp/normalized_videos1/normalized_a.mp4".toList,
             "/tmp/normalized_videos1/normalized_b.mp4".toList] ∧
    (normalizeVideos scenarioEnv scenarioFS scenarioFiles scenarioProps 1280 720 [0, 1]).trace
      = [Event.exec "ffmpeg".toList
           (scaleArgs "a.mp4".toList "/tmp/normalized_videos1/normalized_a.mp4".toList 1280 720)
           true,
         Event.copy "b.mp4".toList "/tmp/normalized_videos1/normalized_b.mp4".toList true] ∧
    stat (normalizeVideos scenarioEnv scenarioFS scenarioFiles scenarioProps 1280 720 [0, 1]).fs
      "/tmp/normalized_videos1/normalized_a.mp4".toList = false ∧
    stat (normalizeVideos scenarioEnv scenarioFS scenarioFiles scenarioProps 1280 720 [0, 1]).fs
      "/tmp/normalized_videos1/normalized_b.mp4".toList = false ∧
    (main scenarioEnv scenarioFS "out.mp4".toList [0, 1]).outcome
      = .mergeFailed (MergeErr.notFound "/tmp/normalized_videos1/normalized_a.mp4".toList) ∧
    (main scenarioEnv scenarioFS "out.mp4".toList [1, 0]).outcome
      = .mergeFailed (MergeErr.notFound "/tmp/normalized_videos1/normalized_a.mp4".toList) ∧
    (main scenarioEnv scenarioFS "out.mp4".toList [0, 1]).trace
      = (normalizeVideos scenarioEnv scenarioFS scenarioFiles scenarioProps 1280 720
          [0, 1]).trace ++
        [Event.mergeCall ["/tmp/normalized_videos1/normalized_a.mp4".toList,
                          "/tmp/normalized_videos1/normalized_b.mp4".toList]] ∧
    stat (main scenarioEnv scenarioFS "out.mp4".toList [0, 1]).fs "out.mp4".toList = false := by
  decide

/-- C5 fails on the code: `a/x.mp4` and `b/x.mp4` both have the target dimensions, both
workers take the copy path, no transcoder runs and both copies succeed, yet when the
workers are done the artifact of `a/x.mp4` holds the bytes of `b/x.mp4`, not those of its
source (and with the workers in the other order the artifact of `b/x.mp4` holds the bytes
of `a/x.mp4`): the two files share one artifact path, the defect of C6. -/
theorem shared_artifact_not_identical :
    propsGet collisionProps "a/x.mp4".toList = (640, 480) ∧
    propsGet collisionProps "b/x.mp4".toList = (640, 480) ∧
    (normalizeVideos scenarioEnv collisionFS collisionFiles collisionProps 640 480
        [0, 1]).trace
      = [Event.copy "a/x.mp4".toList "/tmp/normalized_videos1/normalized_x.mp4".toList true,
         Event.copy "b/x.mp4".toList "/tmp/normalized_videos1/normalized_x.mp4".toList true] ∧
    (normalizeVideos scenarioEnv collisionFS collisionFiles collisionProps 640 480
        [0, 1]).result
      = .ok [artifactPath scenarioTmp "a/x.mp4".toList,
             artifactPath scenarioTmp "b/x.mp4".toList] ∧
    (collisionPool [0, 1]).errChan = [] ∧
    node (collisionPool [0, 1]).fs (artifactPath scenarioTmp "a/x.mp4".toList)
      = some (Node.file "second".toList) ∧
    node (collisionPool [0, 1]).fs "a/x.mp4".toList = some (Node.file "first".toList) ∧
    (collisionPool [1, 0]).errChan = [] ∧
    node (collisionPool [1, 0]).fs (artifactPath scenarioTmp "b/x.mp4".toList)
      = some (Node.file "first".toList) ∧
    node (collisionPool [1, 0]).fs "b/x.mp4".toList = some (Node.file "second".toList) := by
  decide

/-- C6 fails on the code: the distinct selected files `a/x.mp4` and `b/x.mp4` have the same
base name, so for every temporary directory their workers write to the same artifact
path; in the run below both copies succeed, the second overwrites the first, and both
result slots hold that one path, whose content is the second file's. -/
theorem same_base_same_artifact :
    "a/x.mp4".toList ≠ "b/x.mp4".toList ∧
    (∀ tmpDir, artifactPath tmpDir "a/x.mp4".toList = artifactPath tmpDir "b/x.mp4".toList) ∧
    (normalizeVideos scenarioEnv collisionFS collisionFiles collisionProps 640 480 [0, 1]).result
      = .ok ["/tmp/normalized_videos1/normalized_x.mp4".toList,
             "/tmp/normalized_videos1/normalized_x.mp4".toList] ∧
    (normalizeVideos scenarioEnv collisionFS collisionFiles collisionProps 640 480 [0, 1]).trace
      = [Event.copy "a/x.mp4".toList "/tmp/normalized_videos1/normalized_x.mp4".toList true,
         Event.copy "b/x.mp4".toList "/tmp/normalized_videos1/normalized_x.mp4".toList true] ∧
    node ([0, 1].foldl
        (runWorker scenarioEnv "/tmp/normalized_videos1".toList collisionFiles collisionProps 640 480)
        { fs := mkdir collisionFS "/tmp/normalized_videos1".toList,
          normalizedFiles := List.replicate 2 [], errChan := [], trace := [] }).fs
      "/tmp/normalized_videos1/normalized_x.mp4".toList = some (Node.file "second".toList) := by
  refine ⟨by decide, fun tmpDir => ?_, by decide, by decide, by decide⟩
  unfold artifactPath
  have : base "a/x.mp4".toList = base "b/x.mp4".toList := by decide
  rw [this]

theorem trimSpace_blank (out : Str) (h : ∀ c ∈ out, isSpace c = true) : trimSpace out = [] := by
  unfold trimSpace
  have : out.dropWhile isSpace = [] := List.dropWhile_eq_nil_iff.mpr h
  rw [this]
  rfl

theorem trimSpace_newline (s : Str) (c0 : Char) (cs : Str) (hs : s = c0 :: cs)
    (h0 : isSpace c0 = false) (hne : s ≠ []) (hl : isSpace (s.getLast hne) = false) :
    trimSpace (s ++ ['\n']) = s := by
  unfold trimSpace
  have h1 : List.dropWhile isSpace (s ++ ['\n']) = s ++ ['\n'] := by
    rw [hs]
    simp [List.dropWhile, h0]
  rw [h1]
  have hlast : s = s.dropLast ++ [s.getLast hne] := (List.dropLast_append_getLast hne).symm
  have h2 : (s ++ ['\n']).reverse = '\n' :: s.getLast hne :: s.dropLast.reverse := by
    conv_lhs => rw [hlast]
    simp
  rw [h2]
  have hnl : isSpace '\n' = true := by decide
  simp only [List.dropWhile, hnl, hl]
  conv_rhs => rw [hlast]
  simp

theorem splitBy_lines (paths : List Str) (hnl : ∀ p ∈ paths, ∀ x ∈ p, (x == '\n') = false) :
    splitBy (fun c => c == '\n') (paths.map (fun p => p ++ ['\n'])).flatten
      = paths ++ [[]] := by
  induction paths with
  | nil => rfl
  | cons p rest ih =>
    have hp := hnl p (List.mem_cons_self _ _)
    have hrest := ih (fun q hq => hnl q (List.mem_cons_of_mem _ hq))
    simp only [List.map_cons, List.flatten_cons, List.append_assoc, List.singleton_append,
      List.cons_append]
    rw [splitBy_append_sep (fun c => c == '\n') '\n' _ (by decide) p hp, List.nil_append, hrest]

/-- The parsing of `selectVideoFiles` on a selection that is not empty: when the selector
prints one line per path, for one or more paths that are not empty, contain no newline,
and neither start nor end with white space, the result is exactly those paths in order. -/
theorem selectVideoFiles_lines (env : Env) (paths : List Str) (hne : paths ≠ [])
    (hnl : ∀ p ∈ paths, ∀ x ∈ p, (x == '\n') = false)
    (hfirst : ∀ p ∈ paths, ∃ c cs, p = c :: cs ∧ isSpace c = false)
    (hlast : ∀ p ∈ paths, ∀ h : p ≠ [], isSpace (p.getLast h) = false)
    (hout : env.fzf = some (paths.map (fun p => p ++ ['\n'])).flatten) :
    selectVideoFiles env = some paths := by
  rcases List.eq_nil_or_concat paths with h | ⟨init, l, hconcat⟩
  · exact absurd h hne
  · rw [List.concat_eq_append] at hconcat
    subst hconcat
    obtain ⟨lc, lcs, hl, _⟩ := hfirst l (by simp)
    have hlne : l ≠ [] := by rw [hl]; simp
    have hbody : (List.map (fun p => p ++ ['\n']) (init ++ [l])).flatten
        = ((List.map (fun p => p ++ ['\n']) init).flatten ++ l) ++ ['\n'] := by
      simp
    have hbne : (List.map (fun p => p ++ ['\n']) init).flatten ++ l ≠ [] := by
      simp [hlne]
    have hhead : ∃ c0 cs0, (List.map (fun p => p ++ ['\n']) init).flatten ++ l = c0 :: cs0 ∧
        isSpace c0 = false := by
      cases init with
      | nil =>
        obtain ⟨c, cs, hc, hsp⟩ := hfirst l (by simp)
        exact ⟨c, cs, by simp [hc], hsp⟩
      | cons p0 rest =>
        obtain ⟨c, cs, hc, hsp⟩ := hfirst p0 (by simp)
        exact ⟨c, _, by simp [hc]; rfl, hsp⟩
    obtain ⟨c0, cs0, hc0, hsp0⟩ := hhead
    have hgl : ((List.map (fun p => p ++ ['\n']) init).flatten ++ l).getLast hbne
        = l.getLast hlne := List.getLast_append_of_ne_nil hlne
    have htrim := trimSpace_newline _ c0 cs0 hc0 hsp0 hbne (by rw [hgl]; exact hlast l (by simp) hlne)
    have hsplit := splitBy_lines (init ++ [l]) hnl
    rw [hbody, splitBy_append (fun c => c == '\n') '\n' [] (by decide)] at hsplit
    have hsplit2 : splitBy (fun c => c == '\n')
        ((List.map (fun p => p ++ ['\n']) init).flatten ++ l) = init ++ [l] :=
      List.append_cancel_right hsplit
    simp only [selectVideoFiles, hout, hbody, htrim, splitNewline, hsplit2]

/-- C7 fails on the code: when the selector succeeds with empty or white-space-only output,
`selectVideoFiles` returns the list holding one empty path, of length 1, not 0; `main`
does not take its `len(videoFiles) == 0` branch but goes on to `analyzeVideos`, which
reports that the file with the empty name does not exist, a fatal error. -/
theorem empty_selection_is_fatal (env : Env) (fs : FS) (outputName out : Str)
    (order : List Nat)
    (hdeps : checkDependencies env ["fzf".toList, "ffmpeg".toList, "ffprobe".toList] = [])
    (hsel : env.fzf = some out) (hblank : ∀ c ∈ out, isSpace c = true) :
    selectVideoFiles env = some [[]] ∧
    (∀ files, selectVideoFiles env = some files → files.length = 1) ∧
    (main env fs outputName order).outcome = .analyzeFailed (AnalyzeErr.notExist []) ∧
    (main env fs outputName order).outcome ≠ .noFilesSelected := by
  have hs : selectVideoFiles env = some [[]] := by
    simp only [selectVideoFiles, hsel, trimSpace_blank out hblank]
    rfl
  have hm : (main env fs outputName order).outcome = .analyzeFailed (AnalyzeErr.notExist []) := by
    simp only [main, hdeps, hs]
    rfl
  refine ⟨hs, ?_, hm, ?_⟩
  · intro files hf
    rw [hs] at hf
    simp only [Option.some.injEq] at hf
    subst hf
    rfl
  · rw [hm]
    simp

/-- The run of C7 when the selector prints a single newline. -/
theorem empty_selection_is_fatal_witness :
    selectVideoFiles { scenarioEnv with fzf := some "\n".toList } = some [[]] ∧
    (∀ files, selectVideoFiles { scenarioEnv with fzf := some "\n".toList } = some files →
      files.length = 1) ∧
    (main { scenarioEnv with fzf := some "\n".toList } scenarioFS "out.mp4".toList [0]).outcome
      = .analyzeFailed (AnalyzeErr.notExist []) ∧
    (main { scenarioEnv with fzf := some "\n".toList } scenarioFS "out.mp4".toList [0]).outcome
      ≠ .noFilesSelected :=
  empty_selection_is_fatal { scenarioEnv with fzf := some "\n".toList } scenarioFS
    "out.mp4".toList "\n".toList [0] (by decide) (by decide) (by decide)

/-! ## Facts about the synchronisation -/

theorem Pool.step_inv (p n : Nat) (s s2 : Pool) (a : Action) (h : Pool.Inv p n s)
    (hs : Pool.step p n s a = some s2) : Pool.Inv p n s2 := by
  obtain ⟨pc, i, running, returning, released, finished, sem, wg⟩ := s
  obtain ⟨h1, h2, h3, h4, h5, h6, h7⟩ := h
  simp only at h1 h2 h3 h4 h5 h6 h7
  cases a with
  | main =>
    cases pc <;> simp only [Pool.step, MainPc.slot, MainPc.pending, MainPc.afterLoop,
      MainPc.pastBarrier] at hs h2 h3 h5 h6 h7
    · split at hs
      · simp only [Option.some.injEq] at hs
        subst hs
        refine ⟨h1, ?_, ?_, h4, ?_, ?_, ?_⟩ <;>
          simp only [MainPc.slot, MainPc.pending, MainPc.afterLoop, MainPc.pastBarrier]
        · omega
        · omega
        · omega
        · intro hf; exact absurd hf (by simp)
        · intro hf; exact absurd hf (by simp)
      · simp only [Option.some.injEq] at hs
        subst hs
        refine ⟨h1, ?_, ?_, h4, ?_, ?_, ?_⟩ <;>
          simp only [MainPc.slot, MainPc.pending, MainPc.afterLoop, MainPc.pastBarrier]
        · omega
        · omega
        · omega
        · intro _; omega
        · intro hf; exact absurd hf (by simp)
    · split at hs
      · simp only [Option.some.injEq] at hs
        subst hs
        refine ⟨h1, ?_, ?_, ?_, ?_, ?_, ?_⟩ <;>
          simp only [MainPc.slot, MainPc.pending, MainPc.afterLoop, MainPc.pastBarrier]
        · omega
        · omega
        · omega
        · omega
        · intro hf; exact absurd hf (by simp)
        · intro hf; exact absurd hf (by simp)
      · simp at hs
    · simp only [Option.some.injEq] at hs
      subst hs
      refine ⟨?_, ?_, ?_, ?_, ?_, ?_, ?_⟩ <;>
        simp only [MainPc.slot, MainPc.pending, MainPc.afterLoop, MainPc.pastBarrier]
      · omega
      · omega
      · omega
      · omega
      · omega
      · intro hf; exact absurd hf (by simp)
      · intro hf; exact absurd hf (by simp)
    · split at hs
      · rename_i hwg
        simp only [Option.some.injEq] at hs
        subst hs
        refine ⟨h1, ?_, ?_, h4, ?_, ?_, ?_⟩ <;>
          simp only [MainPc.slot, MainPc.pending, MainPc.afterLoop, MainPc.pastBarrier]
        · omega
        · omega
        · omega
        · intro _; exact h6 trivial
        · intro _; omega
      · simp at hs
    · simp only [Option.some.injEq] at hs
      subst hs
      refine ⟨h1, ?_, ?_, h4, ?_, ?_, ?_⟩ <;>
        simp only [MainPc.slot, MainPc.pending, MainPc.afterLoop, MainPc.pastBarrier]
      · omega
      · omega
      · omega
      · intro _; exact h6 trivial
      · intro _; exact h7 trivial
    · simp only [Option.some.injEq] at hs
      subst hs
      refine ⟨h1, ?_, ?_, h4, ?_, ?_, ?_⟩ <;>
        simp only [MainPc.slot, MainPc.pending, MainPc.afterLoop, MainPc.pastBarrier]
      · omega
      · omega
      · omega
      · intro _; exact h6 trivial
      · intro _; exact h7 trivial
    · simp at hs
  | body =>
    simp only [Pool.step] at hs
    split at hs
    · simp only [Option.some.injEq] at hs
      subst hs
      refine ⟨?_, h2, ?_, h4, ?_, h6, ?_⟩
      · simp only; omega
      · simp only; omega
      · simp only; omega
      · intro hp; have := h7 hp; simp only; omega
    · simp at hs
  | release =>
    simp only [Pool.step] at hs
    split at hs
    · simp only [Option.some.injEq] at hs
      subst hs
      refine ⟨?_, h2, ?_, ?_, ?_, h6, ?_⟩
      · simp only; omega
      · simp only; omega
      · simp only; omega
      · simp only; omega
      · intro hp; have := h7 hp; simp only; omega
    · simp at hs
  | done =>
    simp only [Pool.step] at hs
    split at hs
    · simp only [Option.some.injEq] at hs
      subst hs
      refine ⟨?_, h2, h3, h4, ?_, h6, ?_⟩
      · simp only; omega
      · simp only; omega
      · intro hp; have := h7 hp; simp only; omega
    · simp at hs

theorem Pool.exec_inv (p n : Nat) : ∀ (sched : List Action) (s s2 : Pool),
    Pool.Inv p n s → Pool.exec p n s sched = some s2 → Pool.Inv p n s2 := by
  intro sched
  induction sched with
  | nil =>
    intro s s2 h hs
    simp only [Pool.exec, Option.some.injEq] at hs
    subst hs
    exact h
  | cons a rest ih =>
    intro s s2 h hs
    simp only [Pool.exec] at hs
    cases hstep : Pool.step p n s a with
    | none => simp [hstep] at hs
    | some s1 =>
      simp only [hstep] at hs
      exact ih s1 s2 (Pool.step_inv p n s s1 a h hstep) hs

theorem Pool.start_inv (p n : Nat) : Pool.Inv p n Pool.start := by
  simp [Pool.Inv, Pool.start, MainPc.slot, MainPc.pending, MainPc.afterLoop,
    MainPc.pastBarrier]

theorem Pool.exec_append (p n : Nat) : ∀ (a b : List Action) (s : Pool),
    Pool.exec p n s (a ++ b) = (Pool.exec p n s a).bind (fun s1 => Pool.exec p n s1 b) := by
  intro a
  induction a with
  | nil => intro b s; rfl
  | cons x rest ih =>
    intro b s
    simp only [List.cons_append, Pool.exec]
    cases Pool.step p n s x with
    | none => rfl
    | some s1 => exact ih b s1

theorem Pool.exec_rounds (p n : Nat) (hp : 1 ≤ p) : ∀ (k i : Nat), i + k ≤ n →
    Pool.exec p n
        { pc := .loopHead, i := i, running := 0, returning := 0, released := 0,
          finished := i, sem := 0, wg := 0 }
        (List.replicate k Pool.round).flatten
      = some { pc := .loopHead, i := i + k, running := 0, returning := 0, released := 0,
               finished := i + k, sem := 0, wg := 0 } := by
  intro k
  induction k with
  | zero => intro i _; rfl
  | succ k ih =>
    intro i hik
    have hi : i < n := by omega
    have hp0 : 0 < p := by omega
    rw [List.replicate_succ, List.flatten_cons, Pool.exec_append]
    have hround : Pool.exec p n
        { pc := .loopHead, i := i, running := 0, returning := 0, released := 0,
          finished := i, sem := 0, wg := 0 } Pool.round
        = some { pc := .loopHead, i := i + 1, running := 0, returning := 0, released := 0,
                 finished := i + 1, sem := 0, wg := 0 } := by
      simp [Pool.round, Pool.exec, Pool.step, hi, hp0]
    rw [hround]
    simp only [Option.bind]
    rw [ih (i + 1) (by omega)]
    congr 2 <;> omega

/-- With at least one CPU the pool is not stuck: the schedule that lets each worker finish
before the next one is started runs `normalizeVideos` to its return, with all N workers
finished. -/
theorem Pool.can_return (p n : Nat) (hp : 1 ≤ p) :
    Pool.exec p n Pool.start (Pool.sequential n)
      = some { pc := .returned, i := n, running := 0, returning := 0, released := 0,
               finished := n, sem := 0, wg := 0 } := by
  unfold Pool.sequential
  rw [Pool.exec_append]
  have h := Pool.exec_rounds p n hp n 0 (by omega)
  simp only [Nat.zero_add] at h
  have hs : Pool.start = ⟨.loopHead, 0, 0, 0, 0, 0, 0, 0⟩ := rfl
  rw [hs, h]
  simp [Pool.exec, Pool.step]

/-- C9, as stated, fails: with one CPU and two files, after the first worker has run its
deferred `<-sem` and before it runs its deferred `wg.Done()`, `normalizeVideos` sends on
the semaphore and starts the second worker; two workers are then started and not yet
finished, more than P = 1. -/
theorem two_live_workers_one_slot :
    ∃ s, Pool.exec 1 2 Pool.start
        [.main, .main, .main, .body, .release, .main, .main, .main] = some s ∧
      s.running = 1 ∧ s.released = 1 ∧
      ¬ (s.running + s.returning + s.released ≤ 1) :=
  ⟨{ pc := .loopHead, i := 2, running := 1, returning := 0, released := 1,
     finished := 0, sem := 1, wg := 2 }, by decide, by decide, by decide, by decide⟩

/-- C9, amended: in every state `normalizeVideos` can reach, under every schedule, the
number of workers that have been started and have not yet released their semaphore slot
(and hence the number of simultaneously running copy or transcode operations) is at most
P, the capacity of the semaphore; and whenever `normalizeVideos` is past `wg.Wait()`,
where it closes and reads the error channel and the result slice, all N workers have
been started and have run `wg.Done()`. -/
theorem pool_bounded (p n : Nat) (sched : List Action) (s : Pool)
    (h : Pool.exec p n Pool.start sched = some s) :
    s.running + s.returning ≤ p ∧
    s.running + s.returning + s.released + s.finished ≤ n ∧
    (s.pc.pastBarrier = true →
      s.finished = n ∧ s.running = 0 ∧ s.returning = 0 ∧ s.released = 0) := by
  obtain ⟨h1, h2, h3, h4, _, h6, h7⟩ :=
    Pool.exec_inv p n sched Pool.start s (Pool.start_inv p n) h
  refine ⟨by omega, by omega, fun hp => ?_⟩
  obtain ⟨a, b, c⟩ := h7 hp
  have hafter : s.pc.afterLoop = true := by
    cases hpc : s.pc <;> simp [hpc, MainPc.pastBarrier] at hp <;> rfl
  have := h6 hafter
  exact ⟨by omega, a, b, c⟩

/-- The amended C9 at the end of a run with two slots and three files. -/
theorem pool_bounded_witness :
    poolDone.running + poolDone.returning ≤ 2 ∧
    poolDone.running + poolDone.returning + poolDone.released + poolDone.finished ≤ 3 ∧
    (poolDone.pc.pastBarrier = true →
      poolDone.finished = 3 ∧ poolDone.running = 0 ∧ poolDone.returning = 0 ∧
      poolDone.released = 0) :=
  pool_bounded 2 3 poolSchedule poolDone (by decide)

/-! ## Facts about the list-deletion CLI -/

theorem deleteListed_calls {σ : Type} (ops : FileOps σ) (allowed : List Str) :
    ∀ (lines : List Str) (start : Progress σ),
      (∀ l ∈ lines, l ∈ allowed) → (∀ c ∈ start.2, c.1 ∈ allowed) →
      ∀ c ∈ (deleteListed ops start lines).2, c.1 ∈ allowed := by
  intro lines
  induction lines with
  | nil => intro start _ h; exact h
  | cons l rest ih =>
    intro start hl hstart
    have hrest : ∀ x ∈ rest, x ∈ allowed := fun x hx => hl x (List.mem_cons_of_mem _ hx)
    have hstep : deleteListed ops start (l :: rest)
        = deleteListed ops
            (if ops.stat start.1 l = StatResult.notExist then start
              else removeStep ops start l) rest := rfl
    rw [hstep]
    apply ih _ hrest
    split
    · exact hstart
    · intro c hc
      simp only [removeStep, List.mem_append, List.mem_singleton] at hc
      rcases hc with hc | rfl
      · exact hstart c hc
      · exact hl l (List.mem_cons_self _ _)

theorem deleteOthers_calls {σ : Type} (ops : FileOps σ) (keep : List Str) :
    ∀ (names : List Str) (start : Progress σ),
      (deleteOthers ops keep start names).2.map Prod.fst
        = start.2.map Prod.fst ++ names.filter (fun name => !decide (name ∈ keep)) := by
  intro names
  induction names with
  | nil => intro start; simp [deleteOthers]
  | cons x rest ih =>
    intro start
    have hstep : deleteOthers ops keep start (x :: rest)
        = deleteOthers ops keep
            (if decide (x ∈ keep) then start else removeStep ops start x) rest := rfl
    rw [hstep, ih]
    by_cases hx : x ∈ keep
    · simp [hx]
    · simp [hx, removeStep]

theorem deleteOthers_listing {σ : Type} (ops : FileOps σ) (keep listing : List Str)
    (laws : ListingLaws ops listing) :
    ∀ (names : List Str) (start : Progress σ),
      (∀ x ∈ names, x ∈ listing) →
      (∀ name ∈ listing, (name ∉ ops.readDir start.1 ↔ (name, true) ∈ start.2)) →
      ∀ name ∈ listing,
        (name ∉ ops.readDir (deleteOthers ops keep start names).1
          ↔ (name, true) ∈ (deleteOthers ops keep start names).2) := by
  obtain ⟨hgone, hfail, hother⟩ := laws
  intro names
  induction names with
  | nil => intro start _ h; exact h
  | cons x rest ih =>
    intro start hnames hstart
    have hx : x ∈ listing := hnames x (List.mem_cons_self _ _)
    have hrest : ∀ y ∈ rest, y ∈ listing := fun y hy => hnames y (List.mem_cons_of_mem _ hy)
    have hstep : deleteOthers ops keep start (x :: rest)
        = deleteOthers ops keep
            (if decide (x ∈ keep) then start else removeStep ops start x) rest := rfl
    rw [hstep]
    apply ih _ hrest
    split
    · exact hstart
    · intro name hname
      simp only [removeStep, List.mem_append, List.mem_singleton, Prod.mk.injEq]
      by_cases hnx : name = x
      · subst hnx
        cases hb : (ops.remove start.1 name).2 with
        | true =>
          have := hgone start.1 name hname hb
          simp [this]
        | false =>
          rw [hfail start.1 name hname hb, hstart name hname]
          simp
      · rw [hother start.1 x hx name hnx, hstart name hname]
        simp [hnx]

theorem removeStep_replay {σ : Type} (ops : FileOps σ) (s : σ) (acc : Progress σ)
    (path : Str) (h : acc.1 = replay ops s acc.2) :
    (removeStep ops acc path).1 = replay ops s (removeStep ops acc path).2 := by
  simp only [removeStep, replay, List.foldl_append, List.foldl_cons, List.foldl_nil]
  rw [h]
  rfl

theorem deleteListed_replay {σ : Type} (ops : FileOps σ) (s : σ) :
    ∀ (lines : List Str) (start : Progress σ), start.1 = replay ops s start.2 →
      (deleteListed ops start lines).1 = replay ops s (deleteListed ops start lines).2 := by
  intro lines
  induction lines with
  | nil => intro start h; exact h
  | cons l rest ih =>
    intro start h
    have hstep : deleteListed ops start (l :: rest)
        = deleteListed ops
            (if ops.stat start.1 l = StatResult.notExist then start
              else removeStep ops start l) rest := rfl
    rw [hstep]
    apply ih
    split
    · exact h
    · exact removeStep_replay ops s start l h

theorem deleteOthers_replay {σ : Type} (ops : FileOps σ) (keep : List Str) (s : σ) :
    ∀ (names : List Str) (start : Progress σ), start.1 = replay ops s start.2 →
      (deleteOthers ops keep start names).1
        = replay ops s (deleteOthers ops keep start names).2 := by
  intro names
  induction names with
  | nil => intro start h; exact h
  | cons x rest ih =>
    intro start h
    have hstep : deleteOthers ops keep start (x :: rest)
        = deleteOthers ops keep
            (if decide (x ∈ keep) then start else removeStep ops start x) rest := rfl
    rw [hstep]
    apply ih
    split
    · exact h
    · exact removeStep_replay ops s start x h

theorem listDelete_replay {σ : Type} (ops : FileOps σ) (s : σ)
    (pathLine choiceLine confirmLine : Str) :
    (ListDelete.main ops s pathLine choiceLine confirmLine).1
      = replay ops s (ListDelete.main ops s pathLine choiceLine confirmLine).2 := by
  unfold ListDelete.main
  simp only
  split
  · rfl
  · split
    · rfl
    · split
      · exact deleteListed_replay ops s _ (s, []) rfl
      · split
        · exact deleteOthers_replay ops _ s _ (s, []) rfl
        · rfl

/-- C10, as stated, fails twice with choice 2 and the answer `y`: the entry `d`, a
directory that is not empty, is named by no line of the list file, yet it is still an
entry afterwards (`os.Remove` fails on it and the error is ignored); and when the list
path names no file, the program stops at "not found" and removes nothing, although the
entry `junk.txt` is named by no line. -/
theorem nonempty_directory_kept :
    ("d".toList ∈ exampleOps.readDir deleteFS ∧
     "d".toList ∉ scanLines (exampleOps.read deleteFS "list.txt".toList) ∧
     (ListDelete.main exampleOps deleteFS "list.txt\n".toList "2\n".toList "y\n".toList).2
       = [("d".toList, false), ("junk.txt".toList, true)] ∧
     "d".toList ∈ exampleOps.readDir
       (ListDelete.main exampleOps deleteFS "list.txt\n".toList "2\n".toList
         "y\n".toList).1) ∧
    ("junk.txt".toList ∈ exampleOps.readDir deleteFS ∧
     "junk.txt".toList ∉ scanLines (exampleOps.read deleteFS "missing.txt".toList) ∧
     ListDelete.main exampleOps deleteFS "missing.txt\n".toList "2\n".toList "y\n".toList
       = (deleteFS, [])) := by
  decide

/-- C10, amended. The program changes the file system only through its `os.Remove`
calls. If the trimmed confirmation answer is neither `y` nor `Y`, or the trimmed choice
is neither `1` nor `2`, nothing is removed: the state is unchanged and `os.Remove` is not
called. With choice 1, `os.Remove` is called only on paths that are
lines of the list file (as the scanner delivers them). With choice 2, when `os.Stat` on
the list path does not report a missing file and the answer is `y` or `Y`, `os.Remove` is
called on the entries of the current directory whose name is not a line of the list file,
and on nothing else; and, `os.Remove` and `os.ReadDir` obeying the laws of a directory
listing, an entry is removed exactly when its name is not a line and that call succeeds,
and every entry whose name is a line is still an entry. -/
theorem listDelete_frame {σ : Type} (ops : FileOps σ) (s : σ)
    (pathLine choiceLine confirmLine : Str) :
    (ListDelete.main ops s pathLine choiceLine confirmLine).1
      = replay ops s (ListDelete.main ops s pathLine choiceLine confirmLine).2 ∧
    (((trimSpace confirmLine ≠ ['y'] ∧ trimSpace confirmLine ≠ ['Y']) ∨
        (trimSpace choiceLine ≠ "1".toList ∧ trimSpace choiceLine ≠ "2".toList)) →
      ListDelete.main ops s pathLine choiceLine confirmLine = (s, [])) ∧
    (trimSpace choiceLine = "1".toList →
      ∀ c ∈ (ListDelete.main ops s pathLine choiceLine confirmLine).2,
        c.1 ∈ scanLines (ops.read s (trimSpace pathLine))) ∧
    (trimSpace choiceLine = "2".toList →
      ops.stat s (trimSpace pathLine) ≠ StatResult.notExist →
      (trimSpace confirmLine = ['y'] ∨ trimSpace confirmLine = ['Y']) →
      (ListDelete.main ops s pathLine choiceLine confirmLine).2.map Prod.fst
        = (ops.readDir s).filter
            (fun name => !decide (name ∈ scanLines (ops.read s (trimSpace pathLine)))) ∧
      (ListingLaws ops (ops.readDir s) →
        ∀ name ∈ ops.readDir s,
          (name ∉ ops.readDir (ListDelete.main ops s pathLine choiceLine confirmLine).1
            ↔ (name ∉ scanLines (ops.read s (trimSpace pathLine)) ∧
               (name, true) ∈ (ListDelete.main ops s pathLine choiceLine confirmLine).2)) ∧
          (name ∈ scanLines (ops.read s (trimSpace pathLine)) →
            name ∈ ops.readDir (ListDelete.main ops s pathLine choiceLine confirmLine).1))) := by
  refine ⟨listDelete_replay ops s pathLine choiceLine confirmLine, ?_, ?_, ?_⟩
  · intro h
    unfold ListDelete.main
    simp only
    split
    · rfl
    · rcases h with h | h
      · have : equalFoldY (trimSpace confirmLine) = false := by
          simp [equalFoldY, h.1, h.2]
        simp [this]
      · split
        · rfl
        · rw [if_neg h.1, if_neg h.2]
  · intro hch c hc
    unfold ListDelete.main at hc
    simp only at hc
    split at hc
    · simp at hc
    · split at hc
      · simp at hc
      · exact deleteListed_calls ops _ _ (s, []) (fun l hl => hl)
          (fun c hc => by simp at hc) c hc
  · intro hch hst hconf
    have h12 : ¬ ("2".toList = "1".toList) := by decide
    have hfold : equalFoldY (trimSpace confirmLine) = true := by
      rcases hconf with h | h <;> simp [equalFoldY, h]
    have hrun : ListDelete.main ops s pathLine choiceLine confirmLine
        = deleteOthers ops (scanLines (ops.read s (trimSpace pathLine))) (s, [])
            (ops.readDir s) := by
      unfold ListDelete.main
      simp only [hst, hfold, hch, Bool.not_true, Bool.false_eq_true, if_false, if_true, h12]
    have hcalls := deleteOthers_calls ops (scanLines (ops.read s (trimSpace pathLine)))
      (ops.readDir s) (s, [])
    simp only [List.map_nil, List.nil_append] at hcalls
    rw [hrun]
    refine ⟨hcalls, fun laws name hname => ?_⟩
    have hlist := deleteOthers_listing ops (scanLines (ops.read s (trimSpace pathLine)))
      (ops.readDir s) laws (ops.readDir s) (s, []) (fun x hx => hx)
      (fun n hn => by simp [hn]) name hname
    have hnotline : (name, true) ∈ (deleteOthers ops
          (scanLines (ops.read s (trimSpace pathLine))) (s, []) (ops.readDir s)).2 →
        name ∉ scanLines (ops.read s (trimSpace pathLine)) := by
      intro hmem
      have h1 : name ∈ (deleteOthers ops (scanLines (ops.read s (trimSpace pathLine)))
          (s, []) (ops.readDir s)).2.map Prod.fst := List.mem_map.mpr ⟨_, hmem, rfl⟩
      rw [hcalls] at h1
      have := (List.mem_filter.mp h1).2
      simpa using this
    constructor
    · rw [hlist]
      exact ⟨fun h => ⟨hnotline h, h⟩, fun h => h.2⟩
    · intro hline
      by_contra hgone
      exact hnotline (hlist.mp hgone) hline

theorem readDir_mem (fs : FS) (q : Str) :
    q ∈ readDir fs ↔ (∃ e ∈ fs, e.1 = q) ∧ q ≠ [] ∧ '/' ∉ q := by
  unfold readDir
  rw [(List.perm_insertionSort _ _).mem_iff]
  simp only [List.mem_filter, List.mem_map, Bool.and_eq_true, Bool.not_eq_true',
    decide_eq_false_iff_not, List.isEmpty_eq_false]

theorem exampleOps_laws (names : List Str) : ListingLaws exampleOps names := by
  refine ⟨?_, ?_, ?_⟩
  · intro t p _ hok
    have hr : removable t p = true := hok
    show p ∉ readDir (removePath t p)
    rw [readDir_mem]
    unfold removePath
    rw [if_pos hr]
    rintro ⟨⟨e, he, hep⟩, _⟩
    have := (List.mem_filter.mp he).2
    simp [hep] at this
  · intro t p _ hfail
    have hr : removable t p = false := hfail
    show p ∈ readDir (removePath t p) ↔ p ∈ readDir t
    unfold removePath
    simp [hr]
  · intro t p _ q hqp
    show q ∈ readDir (removePath t p) ↔ q ∈ readDir t
    unfold removePath
    split
    · rw [readDir_mem, readDir_mem]
      constructor
      · rintro ⟨⟨e, he, heq⟩, h2⟩
        exact ⟨⟨e, (List.mem_filter.mp he).1, heq⟩, h2⟩
      · rintro ⟨⟨e, he, heq⟩, h2⟩
        refine ⟨⟨e, List.mem_filter.mpr ⟨he, ?_⟩, heq⟩, h2⟩
        have : e.1 ≠ p := by rw [heq]; exact hqp
        simp [this]
    · rfl

/-- The amended C10 on a directory with a list file, a listed file, an unlisted file and
a directory that is not empty: the refused answer, choice 1, and choice 2. -/
theorem listDelete_frame_witness :
    ListDelete.main exampleOps deleteFS "list.txt\n".toList "2\n".toList "n\n".toList
      = (deleteFS, []) ∧
    (∀ c ∈ (ListDelete.main exampleOps deleteFS "list.txt\n".toList "1\n".toList
        "y\n".toList).2,
      c.1 ∈ scanLines (exampleOps.read deleteFS (trimSpace "list.txt\n".toList))) ∧
    ((ListDelete.main exampleOps deleteFS "list.txt\n".toList "2\n".toList
        "Y\n".toList).2.map Prod.fst
      = (exampleOps.readDir deleteFS).filter
          (fun name => !decide (name ∈
            scanLines (exampleOps.read deleteFS (trimSpace "list.txt\n".toList))))) ∧
    (∀ name ∈ exampleOps.readDir deleteFS,
      (name ∉ exampleOps.readDir (ListDelete.main exampleOps deleteFS "list.txt\n".toList
          "2\n".toList "Y\n".toList).1
        ↔ (name ∉ scanLines (exampleOps.read deleteFS (trimSpace "list.txt\n".toList)) ∧
           (name, true) ∈ (ListDelete.main exampleOps deleteFS "list.txt\n".toList
             "2\n".toList "Y\n".toList).2)) ∧
      (name ∈ scanLines (exampleOps.read deleteFS (trimSpace "list.txt\n".toList)) →
        name ∈ exampleOps.readDir (ListDelete.main exampleOps deleteFS
          "list.txt\n".toList "2\n".toList "Y\n".toList).1)) :=
  ⟨(listDelete_frame exampleOps deleteFS "list.txt\n".toList "2\n".toList
      "n\n".toList).2.1 (Or.inl (by decide)),
   (listDelete_frame exampleOps deleteFS "list.txt\n".toList "1\n".toList
      "y\n".toList).2.2.1 (by decide),
   ((listDelete_frame exampleOps deleteFS "list.txt\n".toList "2\n".toList
      "Y\n".toList).2.2.2 (by decide) (by decide) (by decide)).1,
   ((listDelete_frame exampleOps deleteFS "list.txt\n".toList "2\n".toList
      "Y\n".toList).2.2.2 (by decide) (by decide) (by decide)).2 (exampleOps_laws _)⟩

end Scr
